import Mathlib

/-!
Verification of the Manifest Diff & Report Engine of argo-diff.

The embedding follows the current revision of `pkg/diff/engine.go` (the file in
the repository snapshot contains three successive revisions of the package; the
definitions below follow the final one), `pkg/github/client.go`, and the `diff`
package declarations (`AppInfo`, `DiffResult`, `DiffReport`).

External collaborators (the YAML decoder `yaml.Unmarshal`, the JSON-to-YAML
converter, and the system clock) are modelled as explicit parameters: the Go
code calls `gopkg.in/yaml.v3` and `time.Now()`, which are outside the engine.
Strings are modelled with Lean `String` (character counts) for the diff engine
and with `List Char` for the comment segmenter, whose claims are about lengths
and concatenation; Go measures `len` in bytes, which agrees with the character
count on ASCII data.
-/

namespace ArgoDiff

/-- The `helm.sh/hook` annotation key (constant `helmHookAnnotation` in
`engine.go`; renamed here). -/
def helmHookKey : String := "helm.sh/hook"

/-- `strings.TrimSpace`: drop whitespace from both ends.  Defined on the
character list so the kernel can evaluate it (Go trims the Unicode
`White_Space` class; `Char.isWhitespace` covers the characters occurring in
manifests). -/
def trimGo (s : String) : String :=
  ⟨((s.data.dropWhile Char.isWhitespace).reverse.dropWhile Char.isWhitespace).reverse⟩

/-- Find the leftmost occurrence of (non-empty) `pat`: the text before the
match and the text after it. -/
def findPat (pat : List Char) : List Char → Option (List Char × List Char)
  | [] => none
  | c :: cs =>
    if List.take pat.length (c :: cs) = pat then
      some ([], List.drop pat.length (c :: cs))
    else
      match findPat pat cs with
      | none => none
      | some p => some (c :: p.1, p.2)

/-- Splitting at every leftmost occurrence of `pat` (fuel-based; each match
consumes at least one character). -/
def splitPatGo (pat : List Char) : Nat → List Char → List (List Char)
  | 0, s => [s]
  | fuel + 1, s =>
    match findPat pat s with
    | none => [s]
    | some p => p.1 :: splitPatGo pat fuel p.2

/-- `strings.Split(s, sep)` for non-empty `sep`. -/
def splitOnGo (s sep : String) : List String :=
  (splitPatGo sep.data s.data.length s.data).map String.mk

/-- `strings.HasPrefix(s, pre)`. -/
def hasPre (s pre : String) : Bool :=
  List.take pre.data.length s.data == pre.data

/-- The structural fields `yaml.Unmarshal` extracts into the Go `Resource`
struct: `apiVersion`, `kind`, `metadata.name`, `metadata.namespace`,
`metadata.annotations`.  The annotation map is an association list. -/
structure ParsedFields where
  apiVersion : String
  kind : String
  name : String
  nspace : String
  annots : List (String × String)
deriving DecidableEq, Repr

/-- `Resource` from `engine.go`: the parsed fields plus `raw`, the exact
(trimmed) source text of the document. -/
structure Resource where
  apiVersion : String
  kind : String
  name : String
  nspace : String
  annots : List (String × String)
  raw : String
deriving DecidableEq, Repr

/-- `(*Resource).key()` from `engine.go`: `apiVersion/kind/namespace/name`,
namespace segment omitted when empty. -/
def Resource.key (r : Resource) : String :=
  if r.nspace ≠ "" then
    r.apiVersion ++ "/" ++ r.kind ++ "/" ++ r.nspace ++ "/" ++ r.name
  else
    r.apiVersion ++ "/" ++ r.kind ++ "/" ++ r.name

/-- `filterHelmHooks` from `engine.go`: drop resources whose annotation map
contains the hook key. -/
def filterHelmHooks (resources : List Resource) : List Resource :=
  resources.filter fun r => (List.lookup helmHookKey r.annots).isNone

/-- One sub-document step of `parseManifests`: trim, skip empty, decode
(`yaml.Unmarshal`, supplied as `decode`), skip on decode failure, skip
incomplete resources, and record the trimmed text as `raw`. -/
def parseDoc (decode : String → Option ParsedFields) (doc : String) :
    Option Resource :=
  let d := trimGo doc
  if d = "" then none
  else
    match decode d with
    | none => none
    | some f =>
      if f.apiVersion = "" || f.kind = "" || f.name = "" then none
      else some ⟨f.apiVersion, f.kind, f.name, f.nspace, f.annots, d⟩

/-- The inner loop of `parseManifests` over the documents of one manifest. -/
def parseDocs (decode : String → Option ParsedFields) (docs : List String) :
    List Resource :=
  docs.filterMap (parseDoc decode)

/-- One manifest string step of `parseManifests`: trim, skip empty, convert a
JSON manifest (leading brace) via `jsonToYaml` (skipping the manifest when the
conversion fails), split on `\n---\n` document separators, then parse each
sub-document. -/
def parseOneManifest (decode : String → Option ParsedFields)
    (jsonToYaml : String → Option String) (manifest : String) : List Resource :=
  let m := trimGo manifest
  if m = "" then []
  else if hasPre m "\x7b" then
    match jsonToYaml m with
    | none => []
    | some y => parseDocs decode (splitOnGo y "\n---\n")
  else
    parseDocs decode (splitOnGo m "\n---\n")

/-- The resource list accumulated by `parseManifests` over all manifests. -/
def parseManifestsList (decode : String → Option ParsedFields)
    (jsonToYaml : String → Option String) (manifests : List String) :
    List Resource :=
  (manifests.map (parseOneManifest decode jsonToYaml)).flatten

/-- `parseManifests` from `engine.go`.  Its Go body has no `return` with a
non-nil error: every failure is skipped with `continue`, so the error value is
always nil, modelled by always returning `Except.ok`. -/
def parseManifests (decode : String → Option ParsedFields)
    (jsonToYaml : String → Option String) (manifests : List String) :
    Except String (List Resource) :=
  Except.ok (parseManifestsList decode jsonToYaml manifests)

/-- Insert-or-replace for the key→resource Go map (`baseMap`/`headMap` in
`GenerateDiff`): a later resource with the same key overwrites the earlier. -/
def insertEntry (m : List (String × Resource)) (k : String) (r : Resource) :
    List (String × Resource) :=
  match m with
  | [] => [(k, r)]
  | (k2, r2) :: rest =>
    if k2 = k then (k, r) :: rest else (k2, r2) :: insertEntry rest k r

/-- The key→resource map built by `GenerateDiff` (`m[r.key()] = r`). -/
def buildMap (resources : List Resource) : List (String × Resource) :=
  resources.foldl (fun m r => insertEntry m r.key r) []

/-! ## Line Differ (`generateUnifiedDiff` in `engine.go`, final revision) -/

/-- An anchor pair (`match` struct in `generateUnifiedDiff`): indices of a
matching line in the old and new sequences (0-based). -/
structure Anchor where
  oldIdx : Nat
  newIdx : Nat
deriving DecidableEq, Repr

/-- The anchor lookup for one new line.  The Go code buckets old line indices
by an FNV-1a hash (`oldHashes`) in ascending index order and scans the bucket
for the first index that is not in `usedOld` and whose line is exactly equal
(`oldLines[oldIdx] == line`); equal strings always share a bucket and unequal
strings in the same bucket are rejected by the exact comparison, so the lookup
returns the first unused old index holding exactly this line. -/
def findUnusedMatch (o : List String) (used : List Nat) (s : String) : Option Nat :=
  (List.range o.length).find? fun j => !(used.contains j) && (o.get? j == some s)

/-- The anchor-collection loop of `generateUnifiedDiff`: for each new line in
order, greedily take the first unused exactly-equal old line. -/
def buildAnchors (o n : List String) : List Anchor :=
  (n.enum.foldl
    (fun (st : List Anchor × List Nat) p =>
      match findUnusedMatch o st.2 p.2 with
      | some j => (st.1 ++ [⟨j, p.1⟩], st.2 ++ [j])
      | none => st)
    ([], [])).1

/-- `sort.Slice(anchors, ...)` by `oldIdx`.  Each old index is used at most
once, so the keys are pairwise distinct and the sorted order is unique; any
correct sort (Go's unstable sort included) produces this list. -/
def sortByOld (l : List Anchor) : List Anchor :=
  List.insertionSort (fun a b => a.oldIdx ≤ b.oldIdx) l

/-- Inner loop of the O(n²) LIS: for anchor `i`, scan all `j < i` (the table
built so far) and take `dp[j]+1` whenever `anchors[j].newIdx <
anchors[i].newIdx` improves on the current value.  The pair is `(dp value,
parent)`; Go's parent `-1` is `none`. -/
def dpStep (anchors : List Anchor) (prev : List (Nat × Option Nat)) (i : Nat) :
    Nat × Option Nat :=
  prev.enum.foldl
    (fun (cur : Nat × Option Nat) q =>
      match anchors.get? q.1, anchors.get? i with
      | some aj, some ai =>
        if aj.newIdx < ai.newIdx && cur.1 < q.2.1 + 1 then (q.2.1 + 1, some q.1) else cur
      | _, _ => cur)
    (1, none)

/-- The LIS dp/parent table, built left to right (row `i` sees rows `0..i-1`). -/
def dpTable (anchors : List Anchor) : List (Nat × Option Nat) :=
  (List.range anchors.length).foldl (fun prev i => prev ++ [dpStep anchors prev i]) []

/-- `maxLen, maxIdx := 1, 0` then take any strictly larger dp value (first
index attaining the running maximum wins, as in the Go loop). -/
def maxDpIdx (dps : List (Nat × Option Nat)) : Nat × Nat :=
  dps.enum.foldl (fun (cur : Nat × Nat) q => if cur.1 < q.2.1 then (q.2.1, q.1) else cur) (1, 0)

/-- LIS reconstruction: follow parent pointers from `maxIdx`, emitting indices
back to front, for `maxLen` steps (the Go loop fills `lisIdxs[maxLen-1..0]`;
`dp[i]` equals the length of the parent chain ending at `i`, so the fuel is
exactly the chain length). -/
def rebuildLis (dps : List (Nat × Option Nat)) (idx : Nat) : Nat → List Nat
  | 0 => []
  | fuel + 1 =>
    match dps.get? idx with
    | some (_, some j) => rebuildLis dps j fuel ++ [idx]
    | _ => [idx]

/-- The surviving anchor subsequence (`lis` in the Go code). -/
def lisOf (o n : List String) : List Anchor :=
  let anchors := sortByOld (buildAnchors o n)
  match anchors with
  | [] => []
  | _ :: _ =>
    let dps := dpTable anchors
    let m := maxDpIdx dps
    (rebuildLis dps m.2 m.1).filterMap fun i => anchors.get? i

/-- `diffLine` from `generateUnifiedDiff`: text, change marker (`' '`, `'-'`,
`'+'`), and 1-based line numbers (0 when not applicable). -/
structure DiffLine where
  text : String
  change : Char
  oldLine : Nat
  newLine : Nat
deriving DecidableEq, Repr

/-- Deletions emitted for old lines `i..k-1` ("Emit deletions from oldIdx"). -/
def emitOld (o : List String) (i k : Nat) : List DiffLine :=
  ((o.drop i).take (k - i)).enum.map fun p => ⟨p.2, '-', i + p.1 + 1, 0⟩

/-- Insertions emitted for new lines `j..k-1` ("Emit additions to newIdx"). -/
def emitNew (n : List String) (j k : Nat) : List DiffLine :=
  ((n.drop j).take (k - j)).enum.map fun p => ⟨p.2, '+', 0, j + p.1 + 1⟩

/-- The walk over the surviving anchors: between consecutive anchors emit the
skipped old lines as deletions then the skipped new lines as insertions, then
the anchor as an equal line (text taken from the old side); after the last
anchor flush the trailing deletions and insertions. -/
def walk (o n : List String) : List Anchor → Nat → Nat → List DiffLine
  | [], i, j => emitOld o i o.length ++ emitNew n j n.length
  | m :: rest, i, j =>
    emitOld o i m.oldIdx ++ emitNew n j m.newIdx ++
      (⟨(o.get? m.oldIdx).getD "", ' ', m.oldIdx + 1, m.newIdx + 1⟩ ::
        walk o n rest (m.oldIdx + 1) (m.newIdx + 1))

/-- The diff-line sequence `result` computed by `generateUnifiedDiff` before
hunk formation. -/
def computeDiffLines (o n : List String) : List DiffLine :=
  walk o n (lisOf o n) 0 0

/-- Whether position `j` (as a possibly-negative index) holds a changed line. -/
def changeAt (result : List DiffLine) (j : Int) : Bool :=
  if j < 0 then false
  else
    match result.get? j.toNat with
    | some l => l.change != ' '
    | none => false

/-- `isChange || nearChange` for index `idx`: the Go scan checks every
`checkIdx` in `[idx-contextLines, idx+contextLines]` (which includes `idx`
itself, covering `isChange`) for a non-`' '` change marker. -/
def qualifies (result : List DiffLine) (ctx : Nat) (idx : Nat) : Bool :=
  (List.range (2 * ctx + 1)).any fun t => changeAt result ((idx : Int) + t - ctx)

/-- A hunk: inclusive start/end indices into the diff-line sequence. -/
structure Hunk where
  startIdx : Nat
  endIdx : Nat
deriving DecidableEq, Repr

/-- One step of the hunk-grouping scan (state: closed hunks, start of the open
hunk if inside one). -/
def hunkScanStep (result : List DiffLine) (ctx : Nat)
    (st : List Hunk × Option Nat) (idx : Nat) : List Hunk × Option Nat :=
  if qualifies result ctx idx then
    match st.2 with
    | none => (st.1, some idx)
    | some s => (st.1, some s)
  else
    match st.2 with
    | none => st
    | some s => (st.1 ++ [⟨s, idx - 1⟩], none)

/-- The hunk-grouping scan of `generateUnifiedDiff`, closing the final hunk if
still open. -/
def findHunks (result : List DiffLine) (ctx : Nat) : List Hunk :=
  match (List.range result.length).foldl (hunkScanStep result ctx) ([], none) with
  | (hs, none) => hs
  | (hs, some s) => hs ++ [⟨s, result.length - 1⟩]

/-- Hunk header fields `oldStart, oldCount, newStart, newCount` (0 = unset
start before the defaulting step). -/
structure HunkHeader where
  oldStart : Nat
  oldCount : Nat
  newStart : Nat
  newCount : Nat
deriving DecidableEq, Repr

/-- The per-line switch of the hunk-header loop. -/
def headerStep (st : HunkHeader) (l : DiffLine) : HunkHeader :=
  if l.change = ' ' then
    { oldStart := if st.oldStart = 0 && l.oldLine > 0 then l.oldLine else st.oldStart,
      newStart := if st.newStart = 0 && l.newLine > 0 then l.newLine else st.newStart,
      oldCount := st.oldCount + 1,
      newCount := st.newCount + 1 }
  else if l.change = '-' then
    { st with
      oldStart := if st.oldStart = 0 && l.oldLine > 0 then l.oldLine else st.oldStart,
      oldCount := st.oldCount + 1 }
  else if l.change = '+' then
    { st with
      newStart := if st.newStart = 0 && l.newLine > 0 then l.newLine else st.newStart,
      newCount := st.newCount + 1 }
  else st

/-- The lines of a hunk (indices `startIdx..endIdx` of the diff-line list). -/
def hunkSlice (result : List DiffLine) (h : Hunk) : List DiffLine :=
  (result.drop h.startIdx).take (h.endIdx + 1 - h.startIdx)

/-- The hunk header computation, with the final "default to line 1" step. -/
def hunkHeader (result : List DiffLine) (h : Hunk) : HunkHeader :=
  let st := (hunkSlice result h).foldl headerStep ⟨0, 0, 0, 0⟩
  { st with
    oldStart := if st.oldStart = 0 then 1 else st.oldStart,
    newStart := if st.newStart = 0 then 1 else st.newStart }

/-- Rendering of one hunk: the `@@ -a,b +c,d @@` header plus each line with its
change marker. -/
def renderHunk (result : List DiffLine) (h : Hunk) : String :=
  let hh := hunkHeader result h
  "@@ -" ++ toString hh.oldStart ++ "," ++ toString hh.oldCount ++ " +" ++
      toString hh.newStart ++ "," ++ toString hh.newCount ++ " @@\n" ++
    String.join ((hunkSlice result h).map fun l => String.singleton l.change ++ l.text ++ "\n")

/-- The two `--- file` / `+++ file` header lines with the synthetic timestamp
(`time.Now()` in Go, supplied here as `now`). -/
def fileHeader (now filename : String) : String :=
  "--- " ++ filename ++ "\t" ++ now ++ "\n" ++ "+++ " ++ filename ++ "\t" ++ now ++ "\n"

/-- `generateUnifiedDiff` (final revision).  The fast path compares lengths and
then every element, i.e. list equality.  The `now` parameter stands for the
`time.Now()` call that stamps the file header. -/
def generateUnifiedDiff (now : String) (oldLines newLines : List String)
    (filename : String) (contextLines : Nat) : String :=
  if oldLines = newLines then ""
  else
    let result := computeDiffLines oldLines newLines
    if !(result.any fun l => l.change != ' ') then ""
    else
      fileHeader now filename ++
        String.join ((findHunks result contextLines).map (renderHunk result))

/-! ## Resource Set Differ and report data model -/

/-- The diff filename built by `generateResourceDiff` from the base resource. -/
def diffFilename (base : Resource) : String :=
  if base.nspace = "" then base.name ++ "_" ++ base.kind ++ ".yaml"
  else base.nspace ++ "_" ++ base.name ++ "_" ++ base.kind ++ ".yaml"

/-- The unified diff text of a modified resource (`generateResourceDiff`
before wrapping, with 3 context lines). -/
def modifiedContent (now : String) (base head : Resource) : String :=
  generateUnifiedDiff now (splitOnGo base.raw "\n") (splitOnGo head.raw "\n") (diffFilename base) 3

/-- A structured diff block, keyed by the resource identity it concerns;
`GenerateDiff` renders each to the Markdown string it appends to `Diffs`. -/
inductive DiffBlock where
  | modified (key : String) (content : String)
  | deleted (key : String) (raw : String)
  | added (key : String) (raw : String)
deriving DecidableEq, Repr

/-- The resource key a diff block is about. -/
def DiffBlock.bkey : DiffBlock → String
  | .modified k _ => k
  | .deleted k _ => k
  | .added k _ => k

/-- The Markdown string `GenerateDiff` appends for each kind of block. -/
def renderBlock : DiffBlock → String
  | .modified k content =>
    "<details open>\n<summary>===== " ++ k ++ " =====</summary>\n\n```diff\n" ++
      content ++ "```\n</details>"
  | .deleted k raw =>
    "<details>\n<summary>🗑️ Deleted: " ++ k ++ "</summary>\n\n```yaml\n" ++
      raw ++ "\n```\n</details>"
  | .added k raw =>
    "<details>\n<summary>➕ Added: " ++ k ++ "</summary>\n\n```yaml\n" ++
      raw ++ "\n```\n</details>"

/-- The two map loops of `GenerateDiff`: deleted/modified blocks from the base
map, then added blocks from the head map. -/
def generateBlocks (now : String) (baseRs headRs : List Resource) : List DiffBlock :=
  let baseMap := buildMap baseRs
  let headMap := buildMap headRs
  (baseMap.filterMap fun p =>
    match List.lookup p.1 headMap with
    | some head =>
      if p.2.raw ≠ head.raw then
        some (DiffBlock.modified head.key (modifiedContent now p.2 head))
      else none
    | none => some (DiffBlock.deleted p.2.key p.2.raw)) ++
  headMap.filterMap fun p =>
    if (List.lookup p.1 baseMap).isNone then some (DiffBlock.added p.2.key p.2.raw)
    else none

/-- `AppInfo` from the `diff` package declarations. -/
structure AppInfo where
  name : String
  nspace : String
  server : String
  status : String
  health : String
deriving DecidableEq, Repr

/-- `StatusEmoji`. -/
def AppInfo.statusEmoji (a : AppInfo) : String :=
  if a.status = "Synced" then "✅"
  else if a.status = "OutOfSync" then "❌"
  else "❓"

/-- `HealthEmoji`. -/
def AppInfo.healthEmoji (a : AppInfo) : String :=
  if a.health = "Healthy" then "💚"
  else if a.health = "Progressing" then "🔄"
  else if a.health = "Degraded" then "💔"
  else if a.health = "Suspended" then "⏸️"
  else if a.health = "Missing" then "❓"
  else "❓"

/-- `ArgoURL`: empty when no server URL; otherwise server (trailing slash
stripped) `/applications/namespace/name`. -/
def AppInfo.argoURL (a : AppInfo) : String :=
  if a.server = "" then ""
  else
    let s := if a.server.data.getLast? = some '/' then String.mk a.server.data.dropLast else a.server
    s ++ "/applications/" ++ a.nspace ++ "/" ++ a.name

/-- `DiffResult` from the `diff` package declarations.  The snapshot's struct
lacks `duplicateOf`; the field is declared by spec §3 and is read and written
by the repository's own tests (`TestDeduplicateResults`,
`TestFormatAppDiffWithDuplicate`), so it is included here. -/
structure DiffResult where
  appInfo : AppInfo
  diffs : List String
  hasChanges : Bool
  errorMessage : String := ""
  duplicateOf : String := ""
  resourcesAdded : Nat := 0
  resourcesModified : Nat := 0
  resourcesDeleted : Nat := 0
deriving DecidableEq, Repr

/-- The `DiffResult` value `GenerateDiff` builds (its only building path:
append a rendered block and set `HasChanges` for every block, so `hasChanges`
holds exactly when at least one block was appended). -/
def generateDiffResult (now : String) (decode : String → Option ParsedFields)
    (jsonToYaml : String → Option String) (baseManifests headManifests : List String)
    (appInfo : AppInfo) : DiffResult :=
  let baseFiltered := filterHelmHooks (parseManifestsList decode jsonToYaml baseManifests)
  let headFiltered := filterHelmHooks (parseManifestsList decode jsonToYaml headManifests)
  let blocks := generateBlocks now baseFiltered headFiltered
  { appInfo := appInfo, diffs := blocks.map renderBlock, hasChanges := !blocks.isEmpty }

/-- `GenerateDiff` (final revision): parse both sides (propagating a parse
error, which in fact never occurs), filter helm hooks, and emit
deleted/modified/added blocks from the key maps. -/
def GenerateDiff (now : String) (decode : String → Option ParsedFields)
    (jsonToYaml : String → Option String) (baseManifests headManifests : List String)
    (appInfo : AppInfo) : Except String DiffResult :=
  match parseManifests decode jsonToYaml baseManifests with
  | Except.error e => Except.error ("parse base manifests: " ++ e)
  | Except.ok baseResources =>
    match parseManifests decode jsonToYaml headManifests with
    | Except.error e => Except.error ("parse head manifests: " ++ e)
    | Except.ok headResources =>
      let baseFiltered := filterHelmHooks baseResources
      let headFiltered := filterHelmHooks headResources
      let blocks := generateBlocks now baseFiltered headFiltered
      Except.ok
        { appInfo := appInfo, diffs := blocks.map renderBlock, hasChanges := !blocks.isEmpty }

/-- `FormatAppDiff` (final revision of `engine.go`).  Note: this revision has
no `duplicateOf` branch. -/
def FormatAppDiff (result : DiffResult) : String :=
  if result.errorMessage ≠ "" then
    "### ⚠️ `" ++ result.appInfo.name ++ "`\n\n" ++ result.errorMessage
  else if !result.hasChanges then
    "### ✅ No changes for `" ++ result.appInfo.name ++ "`\n"
  else
    "### 📝 `" ++ result.appInfo.name ++ "`\n\n" ++
      "**Status:** " ++ result.appInfo.statusEmoji ++ " " ++ result.appInfo.status ++
        " | **Health:** " ++ result.appInfo.healthEmoji ++ " " ++ result.appInfo.health ++ "\n\n" ++
      (if result.appInfo.argoURL ≠ "" then
        "[View in ArgoCD](" ++ result.appInfo.argoURL ++ ")\n\n"
      else "") ++
      String.intercalate "\n\n" result.diffs

/-- `DiffReport` from the `diff` package declarations. -/
structure DiffReport where
  workflowName : String
  timestamp : String
  totalApps : Nat
  appsWithDiffs : Nat
  results : List DiffResult
deriving DecidableEq, Repr

/-- `NewDiffReport`; the formatted `time.Now()` value is supplied as `now`. -/
def NewDiffReport (now : String) (workflowName : String) (results : List DiffResult) :
    DiffReport :=
  { workflowName := workflowName, timestamp := now, totalApps := results.length,
    appsWithDiffs := (results.filter fun r => r.hasChanges).length, results := results }

/-- `FormatReport`. -/
def FormatReport (report : DiffReport) : String :=
  "# ArgoCD Diff Preview\n\n" ++
    "**" ++ toString report.appsWithDiffs ++ "** of **" ++ toString report.totalApps ++
      "** applications have changes\n\n" ++
    "_Generated at " ++ report.timestamp ++ "_\n\n" ++
    "<!-- argocd-diff-workflow: " ++ report.workflowName ++ " -->\n\n" ++
    "---\n\n" ++
    String.intercalate "\n\n---\n\n" (report.results.map FormatAppDiff)

/-- Modelled from the spec: `deduplicateResults` is absent from the snapshot
under `src/` — only its tests (`TestDeduplicateResults`,
`TestDeduplicateResultsSkipsNoChanges`, `TestDeduplicateResultsSkipsErrors`)
appear.  Spec §4.4: process results in order; skip any result with
`errorMessage` set or `hasChanges=false`; fingerprint the remainder by the
concatenation of the rendered diff blocks; the first result with a given
fingerprint is canonical and left unmarked, every later result with the same
fingerprint gets `duplicateOf` set to the canonical result's application name.
The state `seen` maps fingerprints to the canonical application name. -/
def dedupeGo (seen : List (String × String)) : List DiffResult → List DiffResult
  | [] => []
  | r :: rest =>
    if r.errorMessage ≠ "" ∨ r.hasChanges = false then r :: dedupeGo seen rest
    else
      let fp := String.join r.diffs
      match List.lookup fp seen with
      | some canonicalName => { r with duplicateOf := canonicalName } :: dedupeGo seen rest
      | none => r :: dedupeGo (seen ++ [(fp, r.appInfo.name)]) rest

/-- Modelled from the spec: entry point of the deduplicator (see `dedupeGo`). -/
def deduplicateResults (results : List DiffResult) : List DiffResult :=
  dedupeGo [] results

/-! ## Report Segmenter (`splitComment` / `chunkString` in
`pkg/github/client.go`).  Bodies are `List Char`; Go's `len` counts bytes,
which coincides with the character count on ASCII data. -/

/-- `maxCommentSize` from `client.go`. -/
def maxCommentSize : Nat := 60000

/-- The closing marker matched by `detailsPattern` (the regex
`</details>\n*`: the literal tag followed by any run of newlines). -/
def detailsTag : List Char := "</details>".toList

/-- `detailsPattern.Split(body, -1)`: split at each leftmost match of
`</details>\n*` (the greedy `\n*` consumes the newline run after the tag).
Fuel-based recursion; each match removes at least the 10-character tag. -/
def splitDetailsGo : Nat → List Char → List (List Char)
  | 0, s => [s]
  | fuel + 1, s =>
    match findPat detailsTag s with
    | none => [s]
    | some p => p.1 :: splitDetailsGo fuel (p.2.dropWhile fun c => c = '\n')

/-- The section list `sections` in `splitComment`. -/
def splitDetails (s : List Char) : List (List Char) :=
  splitDetailsGo s.length s

/-- `strings.TrimSpace(x) == ""`: every character is whitespace. -/
def allWhitespaceChars (s : List Char) : Bool := s.all fun c => c.isWhitespace

/-- The section-reassembly loop of `splitComment`: every section except the
last gets `</details>\n\n` re-attached, and sections that trim to empty are
skipped. -/
def fullSections : List (List Char) → List (List Char)
  | [] => []
  | [s] => if allWhitespaceChars s then [] else [s]
  | s :: r :: rest =>
    let f := s ++ detailsTag ++ ('\n' :: '\n' :: [])
    (if allWhitespaceChars f then [] else [f]) ++ fullSections (r :: rest)

/-- The greedy packing loop of `splitComment`: flush the current part when
adding the next section would exceed `maxCommentSize - 500` (and the current
part is non-empty), then append the section to the (possibly fresh) part;
finally flush the last non-empty part. -/
def packSections : List (List Char) → List Char → List (List Char)
  | [], cur => if cur.length > 0 then [cur] else []
  | f :: rest, cur =>
    if cur.length + f.length > maxCommentSize - 500 ∧ cur.length > 0 then
      cur :: packSections rest f
    else
      packSections rest (cur ++ f)

/-- The newline search of `chunkString`: try `i` from `chunkSize` down while
`i > chunkSize-100 && i > 0`, returning `i+1` at the first `s[i] == '\n'`,
else the plain `chunkSize` boundary. -/
def breakPointOf (s : List Char) (chunkSize : Nat) : Nat :=
  match (List.range 100).find? (fun t =>
      decide (0 < chunkSize - t) && (s.get? (chunkSize - t) == some '\n')) with
  | some t => (chunkSize - t) + 1
  | none => chunkSize

/-- `chunkString`: cut fixed-size chunks, preferring to break at a newline in
the last 100 characters before the boundary.  Fuel-based recursion (each step
consumes at least one character for any positive chunk size). -/
def chunkGo (chunkSize : Nat) : Nat → List Char → List (List Char)
  | _, [] => []
  | 0, _ => []
  | fuel + 1, s =>
    if s.length ≤ chunkSize then [s]
    else
      let bp := breakPointOf s chunkSize
      s.take bp :: chunkGo chunkSize fuel (s.drop bp)

/-- `chunkString(s, chunkSize)`. -/
def chunkString (s : List Char) (chunkSize : Nat) : List (List Char) :=
  chunkGo chunkSize s.length s

/-- `splitComment` from `client.go`: a body within `maxCommentSize - 500` is
returned as the single part; otherwise split at `</details>` boundaries and
greedily pack, falling back to fixed-size chunking when the boundary split
produced no parts.  The workflow-name argument is unused by the Go function
body (headers are added by the caller `PostComment`). -/
def splitComment (body : List Char) (_wfName : List Char) : List (List Char) :=
  if body.length ≤ maxCommentSize - 500 then [body]
  else
    let parts := packSections (fullSections (splitDetails body)) []
    if parts.isEmpty then chunkString body (maxCommentSize - 500) else parts

/-- Contiguous-substring test on character lists (for stating what a rendered
string contains). -/
def containsSub : List Char → List Char → Bool
  | [], sub => sub.isEmpty
  | c :: t, sub => (List.take sub.length (c :: t) == sub) || containsSub t sub

/-- Substring test on strings. -/
def strContains (hay sub : String) : Bool := containsSub hay.toList sub.toList

/-! ## Concrete values used by witnesses and counterexamples -/

/-- A concrete decoder covering the two one-line documents used in witnesses:
it recognises the documents `"a"` and `"b"` as the same resource identity
(`v1/A/x`) and fails on everything else. -/
def decodeX : String → Option ParsedFields := fun s =>
  if s = "a" then some ⟨"v1", "A", "x", "", []⟩
  else if s = "b" then some ⟨"v1", "A", "x", "", []⟩
  else none

/-- A JSON-to-YAML converter that always fails (no witness input is JSON). -/
def j2yNone : String → Option String := fun _ => none

/-- A concrete application metadata value. -/
def appX : AppInfo := ⟨"app", "", "", "", ""⟩

/-- The `DiffResult` from `TestFormatAppDiffWithDuplicate` (part_004): changes
present, one diff block `"some diff"`, marked duplicate of `app1`. -/
def dupExample : DiffResult :=
  { appInfo := { name := "app2", nspace := "", server := "", status := "Synced",
                 health := "Healthy" },
    diffs := ["some diff"], hasChanges := true, duplicateOf := "app1" }

/-- Whether `x` is a non-skipped result (no error, has changes) whose
fingerprint — the concatenation of its rendered diff blocks — is `fp`. -/
def fpPred (fp : String) (x : DiffResult) : Bool :=
  (x.errorMessage == "") && x.hasChanges && (String.join x.diffs == fp)

/-- The three deduplication example results of `TestDeduplicateResults`. -/
def dedupeR1 : DiffResult :=
  { appInfo := { name := "app1", nspace := "", server := "", status := "Synced",
                 health := "Healthy" },
    diffs := ["identical diff content"], hasChanges := true }

/-- Second example result (same rendered diff as the first). -/
def dedupeR2 : DiffResult :=
  { appInfo := { name := "app2", nspace := "", server := "", status := "OutOfSync",
                 health := "Progressing" },
    diffs := ["identical diff content"], hasChanges := true }

/-- Third example result (different rendered diff). -/
def dedupeR3 : DiffResult :=
  { appInfo := { name := "app3", nspace := "", server := "", status := "Synced",
                 health := "Healthy" },
    diffs := ["different diff content"], hasChanges := true }

/-! ## Theorems -/

/-- C10: for every line sequence `x`, every label and every context-line
count, the Line Differ applied to the pair `(x, x)` returns the empty
string (the fast path compares the sequences element-wise and returns
immediately). -/
theorem generateUnifiedDiff_self_empty (now : String) (x : List String)
    (filename : String) (contextLines : Nat) :
    generateUnifiedDiff now x x filename contextLines = "" := by
  simp [generateUnifiedDiff]

/-- C7: `FormatAppDiff` in the snapshot has no `duplicateOf` branch: applied
to the input of the repository's own test `TestFormatAppDiffWithDuplicate`
(changes present, `duplicateOf = "app1"`), it renders the full application
section including the diff body `"some diff"` and does not render the
one-line "Same diff as" notice the test (and the spec's precedence) requires. -/
theorem formatAppDiff_ignores_duplicateOf :
    dupExample.duplicateOf = "app1" ∧
      strContains (FormatAppDiff dupExample) "some diff" = true ∧
      strContains (FormatAppDiff dupExample) "Same diff as" = false := by
  refine ⟨rfl, ?_, ?_⟩ <;> decide

/-- C8 counterexample: with all engine inputs identical and only the clock
different, `GenerateDiff` produces different outputs — the difference is in
the per-resource diff blocks (which embed the clock in their unified-diff file
headers), not in any report-generation timestamp. -/
theorem generateDiff_depends_on_clock :
    (generateDiffResult "t1" decodeX j2yNone ["a"] ["b"] appX).diffs ≠
        (generateDiffResult "t2" decodeX j2yNone ["a"] ["b"] appX).diffs ∧
      GenerateDiff "t1" decodeX j2yNone ["a"] ["b"] appX =
        Except.ok (generateDiffResult "t1" decodeX j2yNone ["a"] ["b"] appX) ∧
      GenerateDiff "t2" decodeX j2yNone ["a"] ["b"] appX =
        Except.ok (generateDiffResult "t2" decodeX j2yNone ["a"] ["b"] appX) := by
  refine ⟨by decide, rfl, rfl⟩

/-- C8 (amended): the Line Differ is a deterministic function of its inputs
and the clock value, and the clock affects only the two `---`/`+++` file
header lines: for any two clock values the outputs are both empty or share
the same body after their respective headers. -/
theorem generateUnifiedDiff_clock_only_header (now₁ now₂ : String)
    (oldLines newLines : List String) (filename : String) (contextLines : Nat) :
    (generateUnifiedDiff now₁ oldLines newLines filename contextLines = "" ∧
        generateUnifiedDiff now₂ oldLines newLines filename contextLines = "") ∨
      ∃ body,
        generateUnifiedDiff now₁ oldLines newLines filename contextLines =
            fileHeader now₁ filename ++ body ∧
          generateUnifiedDiff now₂ oldLines newLines filename contextLines =
            fileHeader now₂ filename ++ body := by
  by_cases h : oldLines = newLines
  · left
    simp [generateUnifiedDiff, h]
  · by_cases h2 :
      ((computeDiffLines oldLines newLines).any fun l => l.change != ' ') = true
    · right
      refine ⟨String.join ((findHunks (computeDiffLines oldLines newLines)
        contextLines).map (renderHunk (computeDiffLines oldLines newLines))), ?_, ?_⟩ <;>
        simp [generateUnifiedDiff, h, h2]
    · left
      constructor <;> simp [generateUnifiedDiff, h, h2]

/-- C9: the parser and `GenerateDiff` never return an error: `parseManifests`
always returns `ok` (every failure path is a `continue`), a sub-document on
which the decoder fails is skipped without affecting the parsing of the
documents around it, and `GenerateDiff` returns `ok` with a (non-nil)
`DiffResult` for every input. -/
theorem generateDiff_never_errors :
    (∀ (decode : String → Option ParsedFields) (j2y : String → Option String)
        (manifests : List String),
        parseManifests decode j2y manifests =
          Except.ok (parseManifestsList decode j2y manifests)) ∧
      (∀ (decode : String → Option ParsedFields) (docsPre : List String) (bad : String)
          (docsPost : List String), decode (trimGo bad) = none →
          parseDocs decode (docsPre ++ bad :: docsPost) =
            parseDocs decode (docsPre ++ docsPost)) ∧
      (∀ (now : String) (decode : String → Option ParsedFields)
          (j2y : String → Option String) (baseM headM : List String) (a : AppInfo),
          GenerateDiff now decode j2y baseM headM a =
            Except.ok (generateDiffResult now decode j2y baseM headM a)) := by
  refine ⟨fun _ _ _ => rfl, ?_, fun _ _ _ _ _ _ => rfl⟩
  intro decode docsPre bad docsPost hbad
  have hskip : parseDoc decode bad = none := by
    unfold parseDoc
    by_cases h : trimGo bad = ""
    · simp [h]
    · simp [h, hbad]
  simp [parseDocs, List.filterMap_append, List.filterMap_cons, hskip]

/-- C9 witness: the decoder `decodeX` fails on the document `"zz"`, and that
document is skipped from a batch without disturbing its neighbour. -/
theorem generateDiff_never_errors_witness :
    decodeX (trimGo "zz") = none ∧
      parseDocs decodeX (["a"] ++ "zz" :: []) = parseDocs decodeX (["a"] ++ []) :=
  ⟨by decide, generateDiff_never_errors.2.1 decodeX ["a"] "zz" [] (by decide)⟩

/-- Auxiliary for C3: `dedupeGo` leaves skipped results unchanged and marks a
non-skipped result after the first non-skipped result with the same
fingerprint.  `pre` is the already-processed prefix and `seen` its
fingerprint table. -/
theorem dedupeGo_get (l : List DiffResult) :
    ∀ (pre : List DiffResult) (seen : List (String × String)),
      (∀ fp : String,
        List.lookup fp seen = (pre.find? (fpPred fp)).map fun c => c.appInfo.name) →
      ∀ (i : Nat) (r : DiffResult), l.get? i = some r →
        ((r.errorMessage ≠ "" ∨ r.hasChanges = false) →
          (dedupeGo seen l).get? i = some r) ∧
        (r.errorMessage = "" → r.hasChanges = true →
          (dedupeGo seen l).get? i = some
            (match (pre ++ l.take i).find? (fpPred (String.join r.diffs)) with
             | some c => { r with duplicateOf := c.appInfo.name }
             | none => r)) := by
  induction l with
  | nil => intro pre seen _ i r hget; simp at hget
  | cons r0 rest ih =>
    intro pre seen hseen i r hget
    cases i with
    | zero =>
      simp only [List.get?] at hget
      injection hget with hr
      subst hr
      constructor
      · intro hskip
        simp [dedupeGo, if_pos hskip]
      · intro hno hch
        have hskip : ¬(r0.errorMessage ≠ "" ∨ r0.hasChanges = false) := by
          simp [hno, hch]
        cases hlook : List.lookup (String.join r0.diffs) seen with
        | none =>
          have hfind : pre.find? (fpPred (String.join r0.diffs)) = none := by
            have h := hseen (String.join r0.diffs)
            rw [hlook] at h
            cases hf : pre.find? (fpPred (String.join r0.diffs)) with
            | none => rfl
            | some c => rw [hf] at h; simp at h
          simp [dedupeGo, if_neg hskip, hlook, hfind]
        | some nm =>
          have h := hseen (String.join r0.diffs)
          rw [hlook] at h
          cases hf : pre.find? (fpPred (String.join r0.diffs)) with
          | none => rw [hf] at h; simp at h
          | some c =>
            rw [hf] at h
            simp only [Option.map_some'] at h
            injection h with h
            simp [dedupeGo, if_neg hskip, hlook, hf, h]
    | succ i' =>
      simp only [List.get?] at hget
      by_cases hskip0 : r0.errorMessage ≠ "" ∨ r0.hasChanges = false
      · have hp0 : ∀ fp, fpPred fp r0 = false := by
          intro fp
          rcases hskip0 with h | h
          · simp [fpPred, h]
          · simp [fpPred, h]
        have hseen' : ∀ fp : String,
            List.lookup fp seen =
              ((pre ++ [r0]).find? (fpPred fp)).map fun c => c.appInfo.name := by
          intro fp
          rw [List.find?_append]
          simp [List.find?, hp0 fp, hseen fp]
        have h := ih (pre ++ [r0]) seen hseen' i' r hget
        constructor
        · intro hX
          have h1 := h.1 hX
          simpa [dedupeGo, if_pos hskip0, List.get?] using h1
        · intro hno hch
          have h2 := h.2 hno hch
          simpa [dedupeGo, if_pos hskip0, List.get?, List.append_assoc] using h2
      · have hno0 : r0.errorMessage = "" := by
          by_contra hc
          exact hskip0 (Or.inl hc)
        have hch0 : r0.hasChanges = true := by
          by_contra hc
          exact hskip0 (Or.inr (Bool.eq_false_iff.mpr hc))
        cases hlook : List.lookup (String.join r0.diffs) seen with
        | some nm =>
          have hseen' : ∀ fp : String,
              List.lookup fp seen =
                ((pre ++ [r0]).find? (fpPred fp)).map fun c => c.appInfo.name := by
            intro fp
            rw [List.find?_append]
            cases hp : pre.find? (fpPred fp) with
            | some c => simp [hp, hseen fp]
            | none =>
              by_cases hpp : fpPred fp r0 = true
              · exfalso
                have hfp : String.join r0.diffs = fp := by
                  simpa [fpPred, hno0, hch0] using hpp
                have h := hseen fp
                rw [hp] at h
                rw [← hfp] at h
                rw [hlook] at h
                simp at h
              · simp only [Bool.not_eq_true] at hpp
                simp [hp, List.find?, hpp, hseen fp]
          have h := ih (pre ++ [r0]) seen hseen' i' r hget
          constructor
          · intro hX
            have h1 := h.1 hX
            simpa [dedupeGo, if_neg hskip0, hlook, List.get?] using h1
          · intro hno hch
            have h2 := h.2 hno hch
            simpa [dedupeGo, if_neg hskip0, hlook, List.get?, List.append_assoc] using h2
        | none =>
          have hseen' : ∀ fp : String,
              List.lookup fp (seen ++ [(String.join r0.diffs, r0.appInfo.name)]) =
                ((pre ++ [r0]).find? (fpPred fp)).map fun c => c.appInfo.name := by
            intro fp
            rw [List.lookup_append, List.find?_append]
            cases hp : pre.find? (fpPred fp) with
            | some c =>
              have h := hseen fp
              rw [hp] at h
              simp [h]
            | none =>
              have h := hseen fp
              rw [hp] at h
              simp only [Option.map_none'] at h
              rw [h]
              by_cases hfp : fp = String.join r0.diffs
              · subst hfp
                simp [List.lookup, fpPred, hno0, hch0]
              · have hr0 : fpPred fp r0 = false := by
                  simp [fpPred, hno0, hch0]
                  exact fun hc => hfp hc.symm
                simp [List.lookup, List.find?, hr0,
                  show (fp == String.join r0.diffs) = false by
                    exact beq_eq_false_iff_ne.mpr hfp]
          have h := ih (pre ++ [r0])
            (seen ++ [(String.join r0.diffs, r0.appInfo.name)]) hseen' i' r hget
          constructor
          · intro hX
            have h1 := h.1 hX
            simpa [dedupeGo, if_neg hskip0, hlook, List.get?] using h1
          · intro hno hch
            have h2 := h.2 hno hch
            simpa [dedupeGo, if_neg hskip0, hlook, List.get?, List.append_assoc] using h2

/-- C3: when deduplication processes an ordered list of `DiffResult`s, every
result with `errorMessage` set or `hasChanges = false` is left unchanged (it
never receives a `duplicateOf` mark); among the remaining results, the one at
position `i` is left unchanged when no earlier non-skipped result shares its
rendered-diff fingerprint (the first with that fingerprint keeps `duplicateOf`
empty), and otherwise gets `duplicateOf` set to the application name of the
first such earlier result. -/
theorem deduplicateResults_marks (results : List DiffResult) (i : Nat)
    (r : DiffResult) (hget : results.get? i = some r) :
    ((r.errorMessage ≠ "" ∨ r.hasChanges = false) →
      (deduplicateResults results).get? i = some r) ∧
    (r.errorMessage = "" → r.hasChanges = true →
      (deduplicateResults results).get? i = some
        (match (results.take i).find? (fpPred (String.join r.diffs)) with
         | some c => { r with duplicateOf := c.appInfo.name }
         | none => r)) := by
  have h := dedupeGo_get results [] []
    (by intro fp; simp [List.lookup, List.find?]) i r hget
  simpa [deduplicateResults] using h

/-- C3 witness: on the input of `TestDeduplicateResults`, the second result
(same rendered diff as the first) is marked `duplicateOf = "app1"`, and the
first and third are returned unchanged. -/
theorem deduplicateResults_marks_witness :
    (deduplicateResults [dedupeR1, dedupeR2, dedupeR3]).get? 1 =
      some { dedupeR2 with duplicateOf := "app1" } := by
  have h := (deduplicateResults_marks [dedupeR1, dedupeR2, dedupeR3] 1 dedupeR2 rfl).2 rfl rfl
  exact h

/-- Auxiliary: concatenating the packed parts yields the pending part followed
by the remaining sections, in order. -/
theorem packSections_flatten (fs : List (List Char)) :
    ∀ cur : List Char, (packSections fs cur).flatten = cur ++ fs.flatten := by
  induction fs with
  | nil =>
    intro cur
    by_cases h : cur.length > 0
    · simp [packSections, if_pos h]
    · have hc : cur = [] := List.length_eq_zero.mp (Nat.eq_zero_of_not_pos h)
      simp [packSections, hc]
  | cons f rest ih =>
    intro cur
    by_cases h : cur.length + f.length > maxCommentSize - 500 ∧ cur.length > 0
    · simp [packSections, if_pos h, ih]
    · simp [packSections, if_neg h, ih]

/-- Auxiliary: packing a non-empty list of non-empty sections (or a non-empty
pending part) yields at least one part. -/
theorem packSections_ne_nil (fs : List (List Char)) :
    ∀ cur : List Char, (∀ f ∈ fs, f ≠ []) → (fs ≠ [] ∨ cur ≠ []) →
      packSections fs cur ≠ [] := by
  induction fs with
  | nil =>
    intro cur _ h
    rcases h with h | h
    · exact absurd rfl h
    · have hl : cur.length > 0 := List.length_pos.mpr h
      simp [packSections, if_pos hl]
  | cons f rest ih =>
    intro cur hall _
    by_cases h : cur.length + f.length > maxCommentSize - 500 ∧ cur.length > 0
    · simp [packSections, if_pos h]
    · have hf : f ≠ [] := hall f (by simp)
      have hcf : cur ++ f ≠ [] := by simp [hf]
      have := ih (cur ++ f) (fun g hg => hall g (List.mem_cons_of_mem _ hg)) (Or.inr hcf)
      simpa [packSections, if_neg h] using this

/-- Auxiliary: every packed part either fits the size bound or is literally one
of the incoming sections (the oversized-single-section case). -/
theorem packSections_bound (FS : List (List Char)) (fs : List (List Char)) :
    ∀ cur : List Char, (∀ f ∈ fs, f ∈ FS) →
      (cur = [] ∨ cur.length ≤ maxCommentSize - 500 ∨ cur ∈ FS) →
      ∀ p ∈ packSections fs cur, p.length ≤ maxCommentSize - 500 ∨ p ∈ FS := by
  induction fs with
  | nil =>
    intro cur _ hinv p hp
    by_cases h : cur.length > 0
    · simp [packSections, if_pos h] at hp
      subst hp
      rcases hinv with h0 | h0
      · subst h0; simp at h
      · exact h0
    · simp [packSections, if_neg h] at hp
  | cons f rest ih =>
    intro cur hall hinv p hp
    have hfFS : f ∈ FS := hall f (by simp)
    by_cases h : cur.length + f.length > maxCommentSize - 500 ∧ cur.length > 0
    · simp only [packSections, if_pos h, List.mem_cons] at hp
      rcases hp with hp | hp
      · subst hp
        rcases hinv with h0 | h0
        · subst h0; simp at h
        · exact h0
      · exact ih f (fun g hg => hall g (List.mem_cons_of_mem _ hg))
          (Or.inr (Or.inr hfFS)) p hp
    · simp only [packSections, if_neg h] at hp
      rcases not_and_or.mp h with h0 | h0
      · have hlen : (cur ++ f).length ≤ maxCommentSize - 500 := by
          rw [List.length_append]
          exact Nat.le_of_not_lt h0
        exact ih (cur ++ f) (fun g hg => hall g (List.mem_cons_of_mem _ hg))
          (Or.inr (Or.inl hlen)) p hp
      · have hc : cur = [] := List.length_eq_zero.mp (Nat.eq_zero_of_not_pos h0)
        subst hc
        exact ih f (fun g hg => hall g (List.mem_cons_of_mem _ hg))
          (Or.inr (Or.inr (by simpa using hfFS))) p (by simpa using hp)

/-- Auxiliary: the chunk boundary never exceeds `chunkSize + 1` (the `+1`
arises when the newline search succeeds exactly at the boundary index). -/
theorem breakPointOf_le (s : List Char) (k : Nat) : breakPointOf s k ≤ k + 1 := by
  unfold breakPointOf
  split
  · exact Nat.succ_le_succ (Nat.sub_le k _)
  · exact Nat.le_succ k

/-- Auxiliary: the chunk boundary is positive for a positive chunk size. -/
theorem breakPointOf_pos (s : List Char) (k : Nat) (hk : 0 < k) :
    0 < breakPointOf s k := by
  unfold breakPointOf
  split
  · exact Nat.succ_pos _
  · exact hk

/-- Auxiliary: fixed-size chunking loses no characters. -/
theorem chunkGo_flatten (k : Nat) (hk : 0 < k) :
    ∀ (fuel : Nat) (s : List Char), s.length ≤ fuel → (chunkGo k fuel s).flatten = s := by
  intro fuel
  induction fuel with
  | zero =>
    intro s hs
    have hnil : s = [] := List.length_eq_zero.mp (Nat.le_zero.mp hs)
    subst hnil
    simp [chunkGo]
  | succ fuel ih =>
    intro s hs
    cases s with
    | nil => simp [chunkGo]
    | cons c cs =>
      by_cases h : (c :: cs).length ≤ k
      · simp only [List.length_cons] at h
        simp only [chunkGo, List.length_cons, if_pos h]
        simp
      · have hbp : 0 < breakPointOf (c :: cs) k := breakPointOf_pos _ _ hk
        have hdrop : ((c :: cs).drop (breakPointOf (c :: cs) k)).length ≤ fuel := by
          rw [List.length_drop]
          have := List.length_cons c cs ▸ hs
          omega
        simp only [chunkGo, if_neg h, List.flatten_cons]
        rw [ih _ hdrop]
        exact List.take_append_drop _ _

/-- Auxiliary: every chunk has at most `chunkSize + 1` characters. -/
theorem chunkGo_bound (k : Nat) :
    ∀ (fuel : Nat) (s : List Char), ∀ p ∈ chunkGo k fuel s, p.length ≤ k + 1 := by
  intro fuel
  induction fuel with
  | zero =>
    intro s p hp
    cases s <;> simp [chunkGo] at hp
  | succ fuel ih =>
    intro s p hp
    cases s with
    | nil => simp [chunkGo] at hp
    | cons c cs =>
      by_cases h : (c :: cs).length ≤ k
      · simp only [chunkGo, if_pos h, List.mem_singleton] at hp
        subst hp
        omega
      · simp only [chunkGo, if_neg h, List.mem_cons] at hp
        rcases hp with hp | hp
        · subst hp
          calc (List.take (breakPointOf (c :: cs) k) (c :: cs)).length
              ≤ breakPointOf (c :: cs) k := by
                rw [List.length_take]; exact Nat.min_le_left _ _
            _ ≤ k + 1 := breakPointOf_le _ _
        · exact ih _ p hp

/-- Auxiliary: every reassembled section is non-empty (an all-whitespace
section — in particular an empty one — is skipped). -/
theorem fullSections_ne_nil (secs : List (List Char)) :
    ∀ f ∈ fullSections secs, f ≠ [] := by
  induction secs with
  | nil => simp [fullSections]
  | cons s rest ih =>
    cases rest with
    | nil =>
      intro f hf
      by_cases h : allWhitespaceChars s = true
      · simp [fullSections, h] at hf
      · simp [fullSections, h] at hf
        subst hf
        intro hnil
        subst hnil
        exact h (by rfl)
    | cons r rest2 =>
      intro f hf
      by_cases h : allWhitespaceChars (s ++ detailsTag ++ ('\n' :: '\n' :: [])) = true
      · rw [fullSections, if_pos h] at hf
        exact ih f (by simpa using hf)
      · rw [fullSections, if_neg h] at hf
        simp only [List.cons_append, List.nil_append, List.mem_cons] at hf
        rcases hf with hf | hf
        · subst hf
          simp [detailsTag]
        · exact ih f hf

/-- C4 counterexample input: 59,501 repetitions of `'a'` — one character over
the `maxCommentSize - 500` bound, with no `</details>` boundary inside. -/
def cexBody : List Char := List.replicate 59501 'a'

/-- Auxiliary: the closing tag does not occur in a string of `'a'`s. -/
theorem findPat_replicate_a (s : List Char) (hs : ∀ c ∈ s, c = 'a') :
    findPat detailsTag s = none := by
  induction s with
  | nil => rfl
  | cons c cs ih =>
    have hc : c = 'a' := hs c (by simp)
    have hne : ¬(List.take detailsTag.length (c :: cs) = detailsTag) := by
      intro hEq
      have hhead : some c = some '<' := by
        have h10 : detailsTag.length = 10 := rfl
        rw [h10] at hEq
        calc some c = (List.take 10 (c :: cs)).head? := by simp [List.take_succ_cons]
          _ = detailsTag.head? := by rw [hEq]
          _ = some '<' := rfl
      rw [hc] at hhead
      exact absurd (Option.some.inj hhead) (by decide)
    simp [findPat, if_neg hne, ih (fun x hx => hs x (List.mem_cons_of_mem _ hx))]

/-- Auxiliary: a body with no closing tag is a single section. -/
theorem splitDetailsGo_none (fuel : Nat) (s : List Char)
    (h : findPat detailsTag s = none) : splitDetailsGo fuel s = [s] := by
  cases fuel with
  | zero => rfl
  | succ f => simp [splitDetailsGo, h]

/-- Auxiliary: one non-empty section is packed as a single part. -/
theorem packSections_single (f : List Char) (hf : 0 < f.length) :
    packSections [f] [] = [f] := by
  have hcond : ¬(([] : List Char).length + f.length > maxCommentSize - 500 ∧
      ([] : List Char).length > 0) := by simp
  show (if ([] : List Char).length + f.length > maxCommentSize - 500 ∧
      ([] : List Char).length > 0 then
        ([] : List Char) :: packSections [] f
      else packSections [] ([] ++ f)) = [f]
  rw [if_neg hcond]
  show (if (([] : List Char) ++ f).length > 0 then [([] : List Char) ++ f] else []) = [f]
  simp [hf]

/-- Auxiliary: the over-the-bound branch of `splitComment`. -/
theorem splitComment_over (body wf : List Char)
    (h : ¬ body.length ≤ maxCommentSize - 500) :
    splitComment body wf =
      if (packSections (fullSections (splitDetails body)) []).isEmpty = true then
        chunkString body (maxCommentSize - 500)
      else packSections (fullSections (splitDetails body)) [] := by
  show (if body.length ≤ maxCommentSize - 500 then [body] else _) = _
  rw [if_neg h]

/-- C4 counterexample: a body one character over the bound with no
`</details>` boundary is returned whole as the single part, so the returned
part exceeds the claimed ceiling `60000 - 500`. -/
theorem splitComment_oversized_section_part :
    splitComment cexBody [] = [cexBody] ∧ maxCommentSize - 500 < cexBody.length := by
  have hlen : cexBody.length = 59501 := by
    unfold cexBody
    exact List.length_replicate _ _
  have hgt : ¬(cexBody.length ≤ maxCommentSize - 500) := by
    rw [hlen]; simp only [maxCommentSize]; omega
  have hfp : findPat detailsTag cexBody = none :=
    findPat_replicate_a _ (fun c hc => List.eq_of_mem_replicate hc)
  have hsd : splitDetails cexBody = [cexBody] := splitDetailsGo_none _ _ hfp
  have hws : allWhitespaceChars cexBody = false := by
    unfold allWhitespaceChars cexBody
    rw [List.all_replicate]
    simp only [if_neg (by omega : ¬(59501 = 0))]
    decide
  have hfs : fullSections [cexBody] = [cexBody] := by
    show (if allWhitespaceChars cexBody = true then [] else [cexBody]) = [cexBody]
    rw [hws]
    simp
  have hpos : 0 < cexBody.length := by rw [hlen]; norm_num
  have hpack : packSections [cexBody] [] = [cexBody] := packSections_single _ hpos
  refine ⟨?_, by rw [hlen]; simp only [maxCommentSize]; omega⟩
  rw [splitComment_over _ _ hgt, hsd, hfs, hpack]
  simp

/-- C4 (amended): a body that already fits under `maxCommentSize - 500` is
returned unchanged as the single part; every returned part either has length
at most `maxCommentSize - 500 + 1` (the `+1` from the newline-preferring hard
chunker) or is literally one of the `</details>`-delimited sections — an
oversized single section is emitted whole and may exceed the bound. -/
theorem splitComment_part_bound (body wf : List Char) :
    (body.length ≤ maxCommentSize - 500 → splitComment body wf = [body]) ∧
      ∀ p ∈ splitComment body wf,
        p.length ≤ maxCommentSize - 500 + 1 ∨ p ∈ fullSections (splitDetails body) := by
  constructor
  · intro h
    simp [splitComment, if_pos h]
  · intro p hp
    by_cases h : body.length ≤ maxCommentSize - 500
    · simp only [splitComment, if_pos h, List.mem_singleton] at hp
      subst hp
      left
      omega
    · simp only [splitComment, if_neg h] at hp
      by_cases hparts : (packSections (fullSections (splitDetails body)) []).isEmpty = true
      · rw [if_pos hparts] at hp
        left
        exact chunkGo_bound _ _ _ p hp
      · rw [if_neg hparts] at hp
        rcases packSections_bound (fullSections (splitDetails body)) _ []
            (fun f hf => hf) (Or.inl rfl) p hp with h1 | h1
        · exact Or.inl (Nat.le_succ_of_le h1)
        · exact Or.inr h1

/-- C4 witness: a two-character body fits, is returned unchanged, and the
single part satisfies the bound. -/
theorem splitComment_part_bound_witness :
    ("ok".toList.length ≤ maxCommentSize - 500 ∧ splitComment "ok".toList [] = ["ok".toList]) ∧
      ("ok".toList ∈ splitComment "ok".toList [] ∧
        ("ok".toList.length ≤ maxCommentSize - 500 + 1 ∨
          "ok".toList ∈ fullSections (splitDetails "ok".toList))) :=
  ⟨⟨by decide, (splitComment_part_bound "ok".toList []).1 (by decide)⟩,
    ⟨by decide, (splitComment_part_bound "ok".toList []).2 "ok".toList (by decide)⟩⟩

/-- C5: the concatenation of all parts returned by the segmenter reconstructs
the input exactly when it fits or when the fallback chunker ran, and otherwise
reconstructs, in order, exactly the non-empty boundary-reassembled sections
(each `</details>` boundary token re-attached to the section that precedes
it): no section is dropped, reordered or altered by the packing. -/
theorem splitComment_concat (body wf : List Char) :
    (splitComment body wf).flatten =
      if body.length ≤ maxCommentSize - 500 then body
      else if fullSections (splitDetails body) = [] then body
      else (fullSections (splitDetails body)).flatten := by
  by_cases h : body.length ≤ maxCommentSize - 500
  · simp [splitComment, if_pos h]
  · rw [if_neg h]
    by_cases hfs : fullSections (splitDetails body) = []
    · rw [if_pos hfs]
      have hparts : packSections (fullSections (splitDetails body)) [] = [] := by
        rw [hfs]
        simp [packSections]
      simp only [splitComment, if_neg h, hparts, List.isEmpty_nil, if_true]
      exact chunkGo_flatten _ (by simp only [maxCommentSize]; omega) _ _ (le_refl _)
    · rw [if_neg hfs]
      have hne : packSections (fullSections (splitDetails body)) [] ≠ [] :=
        packSections_ne_nil _ [] (fullSections_ne_nil _) (Or.inl hfs)
      have hEmp : (packSections (fullSections (splitDetails body)) []).isEmpty = false := by
        rw [List.isEmpty_eq_false]
        exact hne
      simp only [splitComment, if_neg h, hEmp, Bool.false_eq_true, if_false]
      simpa using packSections_flatten _ []

/-- Auxiliary: a successful association-list lookup exhibits a member with the
looked-up key. -/
theorem lookup_mem {β : Type} (m : List (String × β)) (k : String) (v : β)
    (h : List.lookup k m = some v) : (k, v) ∈ m := by
  induction m with
  | nil => simp [List.lookup] at h
  | cons e rest ih =>
    rw [List.lookup] at h
    cases he : (k == e.1) with
    | true =>
      simp only [he] at h
      injection h with h2
      have hk : k = e.1 := eq_of_beq he
      subst hk
      rw [← h2]
      exact List.mem_cons_self _ _
    | false =>
      simp only [he] at h
      exact List.mem_cons_of_mem _ (ih h)

/-- Auxiliary: membership of a key among the keys of an insert-or-replace. -/
theorem keys_insertEntry_mem (m : List (String × Resource)) (k : String)
    (r : Resource) (x : String) :
    x ∈ (insertEntry m k r).map Prod.fst ↔ x = k ∨ x ∈ m.map Prod.fst := by
  induction m with
  | nil => simp [insertEntry]
  | cons e rest ih =>
    by_cases he : e.1 = k
    · rw [insertEntry, if_pos he]
      simp [he]
    · rw [insertEntry, if_neg he]
      simp [ih]
      tauto

/-- Auxiliary: insert-or-replace preserves distinctness of keys. -/
theorem keys_insertEntry_nodup (m : List (String × Resource)) (k : String)
    (r : Resource) (h : (m.map Prod.fst).Nodup) :
    ((insertEntry m k r).map Prod.fst).Nodup := by
  induction m with
  | nil => simp [insertEntry]
  | cons e rest ih =>
    rw [List.map_cons, List.nodup_cons] at h
    by_cases he : e.1 = k
    · rw [insertEntry, if_pos he]
      rw [List.map_cons, List.nodup_cons]
      exact ⟨he ▸ h.1, h.2⟩
    · rw [insertEntry, if_neg he]
      rw [List.map_cons, List.nodup_cons]
      refine ⟨?_, ih h.2⟩
      intro hc
      rcases (keys_insertEntry_mem rest k r e.1).mp hc with hc | hc
      · exact he hc
      · exact h.1 hc

/-- Auxiliary: every entry of the key→resource map is stored under its own
resource key, and the keys are pairwise distinct. -/
theorem buildMap_invariant (rs : List Resource) :
    ((buildMap rs).map Prod.fst).Nodup ∧ ∀ p ∈ buildMap rs, p.2.key = p.1 := by
  suffices h : ∀ m : List (String × Resource), (m.map Prod.fst).Nodup →
      (∀ p ∈ m, p.2.key = p.1) →
      ((rs.foldl (fun m r => insertEntry m r.key r) m).map Prod.fst).Nodup ∧
        ∀ p ∈ rs.foldl (fun m r => insertEntry m r.key r) m, p.2.key = p.1 by
    exact h [] (by simp) (by simp)
  induction rs with
  | nil => intro m h1 h2; exact ⟨h1, h2⟩
  | cons r rest ih =>
    intro m h1 h2
    refine ih (insertEntry m r.key r) (keys_insertEntry_nodup m r.key r h1) ?_
    intro p hp
    clear h1 ih
    induction m with
    | nil =>
      simp [insertEntry] at hp
      subst hp
      rfl
    | cons e restm ihm =>
      by_cases he : e.1 = r.key
      · rw [insertEntry, if_pos he] at hp
        rcases List.mem_cons.mp hp with hp | hp
        · subst hp; rfl
        · exact h2 p (List.mem_cons_of_mem _ hp)
      · rw [insertEntry, if_neg he] at hp
        rcases List.mem_cons.mp hp with hp | hp
        · subst hp; exact h2 e (by simp)
        · exact ihm (fun q hq => h2 q (List.mem_cons_of_mem _ hq)) hp

/-- Auxiliary: with pairwise-distinct keys, two members sharing a key agree. -/
theorem mem_unique_of_nodup_keys {β : Type} (m : List (String × β))
    (h : (m.map Prod.fst).Nodup) (k : String) (v w : β)
    (hv : (k, v) ∈ m) (hw : (k, w) ∈ m) : v = w := by
  induction m with
  | nil => simp at hv
  | cons e rest ih =>
    rw [List.map_cons, List.nodup_cons] at h
    rcases List.mem_cons.mp hv with hv | hv <;> rcases List.mem_cons.mp hw with hw | hw
    · exact congrArg Prod.snd (hv.trans hw.symm)
    · exfalso
      refine h.1 ?_
      have hk : e.1 = k := by rw [← hv]
      rw [hk]
      exact List.mem_map.mpr ⟨(k, w), hw, rfl⟩
    · exfalso
      refine h.1 ?_
      have hk : e.1 = k := by rw [← hw]
      rw [hk]
      exact List.mem_map.mpr ⟨(k, v), hv, rfl⟩
    · exact ih h.2 hv hw

/-- C1: for every pair of manifest lists and every resource key present in
both parsed, hook-filtered collections, `GenerateDiff` succeeds, and: if the
two resources' `raw` texts are identical, no diff block (modified, deleted or
added) for that key is emitted; if they differ, the modified-resource block
for that key is emitted and `hasChanges` is set — a textual difference is
never silently dropped. -/
theorem generateDiff_key_in_both (now : String) (decode : String → Option ParsedFields)
    (j2y : String → Option String) (baseM headM : List String) (a : AppInfo)
    (k : String) (b h : Resource)
    (hb : List.lookup k
      (buildMap (filterHelmHooks (parseManifestsList decode j2y baseM))) = some b)
    (hh : List.lookup k
      (buildMap (filterHelmHooks (parseManifestsList decode j2y headM))) = some h) :
    GenerateDiff now decode j2y baseM headM a =
        Except.ok (generateDiffResult now decode j2y baseM headM a) ∧
      (b.raw = h.raw →
        ∀ blk ∈ generateBlocks now (filterHelmHooks (parseManifestsList decode j2y baseM))
            (filterHelmHooks (parseManifestsList decode j2y headM)), blk.bkey ≠ k) ∧
      (b.raw ≠ h.raw →
        DiffBlock.modified k (modifiedContent now b h) ∈
            generateBlocks now (filterHelmHooks (parseManifestsList decode j2y baseM))
              (filterHelmHooks (parseManifestsList decode j2y headM)) ∧
          (generateDiffResult now decode j2y baseM headM a).hasChanges = true) := by
  set baseRs := filterHelmHooks (parseManifestsList decode j2y baseM) with hbase
  set headRs := filterHelmHooks (parseManifestsList decode j2y headM) with hhead
  obtain ⟨hbnodup, hbkeys⟩ := buildMap_invariant baseRs
  obtain ⟨hhnodup, hhkeys⟩ := buildMap_invariant headRs
  refine ⟨rfl, ?_, ?_⟩
  · intro hraw blk hblk hbk
    simp only [generateBlocks] at hblk
    rcases List.mem_append.mp hblk with hmem | hmem
    · rcases List.mem_filterMap.mp hmem with ⟨p, hp, hf⟩
      cases hl : List.lookup p.1 (buildMap headRs) with
      | some head' =>
        simp only [hl] at hf
        by_cases hne : p.2.raw ≠ head'.raw
        · rw [if_pos hne] at hf
          injection hf with hf
          subst hf
          simp only [DiffBlock.bkey] at hbk
          have hkeyh : head'.key = p.1 := hhkeys _ (lookup_mem _ _ _ hl)
          rw [hkeyh] at hbk
          subst hbk
          have hbb : p.2 = b :=
            mem_unique_of_nodup_keys _ hbnodup p.1 p.2 b hp (lookup_mem _ _ _ hb)
          have hhh : head' = h := by
            rw [hl] at hh
            injection hh
          rw [hbb, hhh] at hne
          exact hne hraw
        · rw [if_neg hne] at hf
          simp at hf
      | none =>
        simp only [hl] at hf
        injection hf with hf
        subst hf
        simp only [DiffBlock.bkey] at hbk
        have hkeyb : p.2.key = p.1 := hbkeys _ hp
        rw [hkeyb] at hbk
        subst hbk
        rw [hl] at hh
        exact Option.noConfusion hh
    · rcases List.mem_filterMap.mp hmem with ⟨p, hp, hf⟩
      by_cases hl : (List.lookup p.1 (buildMap baseRs)).isNone = true
      · rw [if_pos hl] at hf
        injection hf with hf
        subst hf
        simp only [DiffBlock.bkey] at hbk
        have hkeyh : p.2.key = p.1 := hhkeys _ hp
        rw [hkeyh] at hbk
        subst hbk
        rw [hb] at hl
        simp at hl
      · rw [if_neg hl] at hf
        simp at hf
  · intro hraw
    have hkeyh : h.key = k := hhkeys _ (lookup_mem _ _ _ hh)
    have hmem : DiffBlock.modified k (modifiedContent now b h) ∈
        generateBlocks now baseRs headRs := by
      simp only [generateBlocks]
      refine List.mem_append.mpr (Or.inl ?_)
      refine List.mem_filterMap.mpr ⟨(k, b), lookup_mem _ _ _ hb, ?_⟩
      simp only [hh, if_pos hraw, hkeyh]
    refine ⟨hmem, ?_⟩
    have hne : generateBlocks now baseRs headRs ≠ [] := by
      intro hnil
      rw [hnil] at hmem
      simp at hmem
    show (!(generateBlocks now baseRs headRs).isEmpty) = true
    rw [List.isEmpty_eq_false.mpr hne]
    rfl

/-- The resource parsed from the one-line document `"a"` by `decodeX`. -/
def resA : Resource := ⟨"v1", "A", "x", "", [], "a"⟩

/-- The resource parsed from the one-line document `"b"` by `decodeX`. -/
def resB : Resource := ⟨"v1", "A", "x", "", [], "b"⟩

/-- C1 witness: with the concrete decoder, key `v1/A/x` is present on both
sides with different `raw` texts, and the modified block for it is emitted
with `hasChanges` set. -/
theorem generateDiff_key_in_both_witness :
    (List.lookup "v1/A/x"
        (buildMap (filterHelmHooks (parseManifestsList decodeX j2yNone ["a"]))) =
          some resA ∧
      List.lookup "v1/A/x"
        (buildMap (filterHelmHooks (parseManifestsList decodeX j2yNone ["b"]))) =
          some resB ∧ resA.raw ≠ resB.raw) ∧
      DiffBlock.modified "v1/A/x" (modifiedContent "t" resA resB) ∈
          generateBlocks "t" (filterHelmHooks (parseManifestsList decodeX j2yNone ["a"]))
            (filterHelmHooks (parseManifestsList decodeX j2yNone ["b"])) ∧
        (generateDiffResult "t" decodeX j2yNone ["a"] ["b"] appX).hasChanges = true :=
  ⟨⟨by decide, by decide, by decide⟩,
    (generateDiff_key_in_both "t" decodeX j2yNone ["a"] ["b"] appX "v1/A/x" resA resB
      (by decide) (by decide)).2.2 (by decide)⟩

/-! ### Round-trip development for the Line Differ (C2) -/

/-- A well-formed anchor: both indices in bounds and the two lines equal. -/
def AnchorOK (o n : List String) (m : Anchor) : Prop :=
  m.oldIdx < o.length ∧ m.newIdx < n.length ∧ o.get? m.oldIdx = n.get? m.newIdx

/-- Generic fold invariant. -/
theorem foldl_inv {α β : Type} (f : β → α → β) (P : β → Prop) :
    ∀ (l : List α) (init : β), P init → (∀ b a, a ∈ l → P b → P (f b a)) →
      P (l.foldl f init) := by
  intro l
  induction l with
  | nil => intro init h _; exact h
  | cons a rest ih =>
    intro init h hstep
    exact ih (f init a) (hstep init a (by simp) h)
      (fun b x hx hb => hstep b x (by simp [hx]) hb)

/-- Auxiliary: what a successful unused-match lookup guarantees. -/
theorem findUnusedMatch_spec (o : List String) (used : List Nat) (s : String)
    (j : Nat) (h : findUnusedMatch o used s = some j) :
    j < o.length ∧ used.contains j = false ∧ o.get? j = some s := by
  have hmem : j ∈ List.range o.length := List.mem_of_find?_eq_some h
  have hp := List.find?_some h
  simp only [Bool.and_eq_true, Bool.not_eq_true'] at hp
  refine ⟨List.mem_range.mp hmem, hp.1, ?_⟩
  have := hp.2
  simpa using this

/-- Auxiliary: the collected anchors are well-formed and use each old index at
most once. -/
theorem buildAnchors_spec (o n : List String) :
    (∀ m ∈ buildAnchors o n, AnchorOK o n m) ∧
      ((buildAnchors o n).map (fun a => a.oldIdx)).Nodup := by
  have hmain :
      ∀ st : List Anchor × List Nat,
        (st.2 = st.1.map (fun a => a.oldIdx) ∧ (∀ m ∈ st.1, AnchorOK o n m) ∧
          st.2.Nodup) →
        ((n.enum.foldl
            (fun (st : List Anchor × List Nat) p =>
              match findUnusedMatch o st.2 p.2 with
              | some j => (st.1 ++ [⟨j, p.1⟩], st.2 ++ [j])
              | none => st)
            st).2 =
            (n.enum.foldl
              (fun (st : List Anchor × List Nat) p =>
                match findUnusedMatch o st.2 p.2 with
                | some j => (st.1 ++ [⟨j, p.1⟩], st.2 ++ [j])
                | none => st)
              st).1.map (fun a => a.oldIdx) ∧
          (∀ m ∈ (n.enum.foldl
              (fun (st : List Anchor × List Nat) p =>
                match findUnusedMatch o st.2 p.2 with
                | some j => (st.1 ++ [⟨j, p.1⟩], st.2 ++ [j])
                | none => st)
              st).1, AnchorOK o n m) ∧
          (n.enum.foldl
            (fun (st : List Anchor × List Nat) p =>
              match findUnusedMatch o st.2 p.2 with
              | some j => (st.1 ++ [⟨j, p.1⟩], st.2 ++ [j])
              | none => st)
            st).2.Nodup) := by
    intro st hst
    refine foldl_inv _
      (fun st => st.2 = st.1.map (fun a => a.oldIdx) ∧ (∀ m ∈ st.1, AnchorOK o n m) ∧
        st.2.Nodup) n.enum st hst ?_
    intro b p hp hb
    cases hfind : findUnusedMatch o b.2 p.2 with
    | none => simpa [hfind] using hb
    | some j =>
      obtain ⟨hj, hcont, hget⟩ := findUnusedMatch_spec o b.2 p.2 j hfind
      have hpn : n.get? p.1 = some p.2 := by
        have := List.mem_enum_iff_getElem?.mp hp
        rw [List.get?_eq_getElem?]
        exact this
      have hlt : p.1 < n.length := by
        by_contra hc
        rw [List.get?_eq_none.mpr (Nat.le_of_not_lt hc)] at hpn
        exact Option.noConfusion hpn
      have hnotmem : j ∉ b.2 := by simpa using hcont
      simp only [hfind]
      refine ⟨?_, ?_, ?_⟩
      · simp [hb.1, List.map_append]
      · intro m hm
        rcases List.mem_append.mp hm with hm | hm
        · exact hb.2.1 m hm
        · rw [List.mem_singleton] at hm
          subst hm
          exact ⟨hj, hlt, by rw [hget, hpn]⟩
      · rw [List.nodup_append]
        exact ⟨hb.2.2, List.nodup_singleton _, by simpa using hnotmem⟩
  have h := hmain ([], []) (by simp)
  exact ⟨h.2.1, h.1 ▸ h.2.2⟩

/-- Totality of the `oldIdx` order used by the sort. -/
instance : IsTotal Anchor (fun a b => a.oldIdx ≤ b.oldIdx) :=
  ⟨fun a b => Nat.le_total a.oldIdx b.oldIdx⟩

/-- Transitivity of the `oldIdx` order used by the sort. -/
instance : IsTrans Anchor (fun a b => a.oldIdx ≤ b.oldIdx) :=
  ⟨fun _ _ _ h1 h2 => Nat.le_trans h1 h2⟩

/-- Auxiliary: sorting permutes the anchors. -/
theorem sortByOld_perm (l : List Anchor) : (sortByOld l).Perm l :=
  List.perm_insertionSort _ l

/-- Auxiliary: with pairwise-distinct old indices the sorted anchors are
strictly increasing in `oldIdx`. -/
theorem sortByOld_sorted_strict (l : List Anchor)
    (hn : (l.map (fun a => a.oldIdx)).Nodup) :
    List.Pairwise (fun a b : Anchor => a.oldIdx < b.oldIdx) (sortByOld l) := by
  have hs : List.Pairwise (fun a b : Anchor => a.oldIdx ≤ b.oldIdx) (sortByOld l) :=
    List.sorted_insertionSort _ l
  have hn2 : ((sortByOld l).map (fun a => a.oldIdx)).Nodup :=
    (((sortByOld_perm l).map (fun a => a.oldIdx)).nodup_iff).mpr hn
  have hne : List.Pairwise (fun a b : Anchor => a.oldIdx ≠ b.oldIdx) (sortByOld l) :=
    List.pairwise_map.mp hn2
  exact (hs.and hne).imp fun h => Nat.lt_of_le_of_ne h.1 h.2

/-- Parent-pointer soundness of the LIS table: each recorded parent points to
an earlier row whose anchor has a strictly smaller `newIdx`. -/
def parentOK (anchors : List Anchor) (dps : List (Nat × Option Nat)) : Prop :=
  ∀ i pi j, dps.get? i = some pi → pi.2 = some j →
    j < i ∧ ∃ ai aj, anchors.get? i = some ai ∧ anchors.get? j = some aj ∧
      aj.newIdx < ai.newIdx

/-- Auxiliary: soundness of one dp row. -/
theorem dpStep_parent (anchors : List Anchor) (prev : List (Nat × Option Nat))
    (i : Nat) (j : Nat) (h : (dpStep anchors prev i).2 = some j) :
    j < prev.length ∧ ∃ ai aj, anchors.get? i = some ai ∧
      anchors.get? j = some aj ∧ aj.newIdx < ai.newIdx := by
  set C := fun j' : Nat => j' < prev.length ∧ ∃ ai aj, anchors.get? i = some ai ∧
    anchors.get? j' = some aj ∧ aj.newIdx < ai.newIdx with hC
  show C j
  unfold dpStep at h
  refine foldl_inv _ (fun cur : Nat × Option Nat => cur.2 = some j → C j)
    prev.enum (1, none) (by simp) ?_ h
  intro b q hq hb
  cases ha : anchors.get? q.1 with
  | none =>
    cases hai : anchors.get? i with
    | none => simp only [ha, hai]; exact hb
    | some ai => simp only [ha, hai]; exact hb
  | some aj =>
    cases hai : anchors.get? i with
    | none => simp only [ha, hai]; exact hb
    | some ai =>
      simp only [ha, hai]
      by_cases hcond : (aj.newIdx < ai.newIdx && b.1 < q.2.1 + 1) = true
      · rw [if_pos hcond]
        intro hj
        injection hj with hj
        subst hj
        have hqlt : q.1 < prev.length := by
          have hmem := List.mem_enum_iff_getElem?.mp hq
          by_contra hc
          rw [List.getElem?_eq_none (Nat.le_of_not_lt hc)] at hmem
          exact Option.noConfusion hmem
        simp only [Bool.and_eq_true, decide_eq_true_eq] at hcond
        simp only [hC]
        exact ⟨hqlt, ai, aj, hai, ha, hcond.1⟩
      · rw [if_neg hcond]
        exact hb

/-- Auxiliary: the dp table has one row per anchor and sound parents. -/
theorem dpTable_spec (anchors : List Anchor) :
    (dpTable anchors).length = anchors.length ∧ parentOK anchors (dpTable anchors) := by
  suffices h : ∀ k,
      ((List.range k).foldl (fun prev i => prev ++ [dpStep anchors prev i]) []).length = k ∧
        parentOK anchors
          ((List.range k).foldl (fun prev i => prev ++ [dpStep anchors prev i]) []) by
    exact h anchors.length
  intro k
  induction k with
  | zero =>
    constructor
    · rfl
    · intro i pi j hget _
      simp at hget
  | succ k ih =>
    rw [List.range_succ, List.foldl_append, List.foldl_cons, List.foldl_nil]
    set T := (List.range k).foldl (fun prev i => prev ++ [dpStep anchors prev i]) [] with hT
    constructor
    · rw [List.length_append, ih.1]
      rfl
    · intro i pi j hget hpj
      by_cases hik : i < T.length
      · rw [List.get?_append hik] at hget
        exact ih.2 i pi j hget hpj
      · have hlt2 : i < (T ++ [dpStep anchors T k]).length := by
          by_contra hc
          rw [List.get?_eq_none.mpr (Nat.le_of_not_lt hc)] at hget
          exact Option.noConfusion hget
        rw [List.length_append, List.length_singleton] at hlt2
        have hieq : i = T.length := by omega
        subst hieq
        rw [List.get?_concat_length] at hget
        injection hget with hget
        subst hget
        have hres := dpStep_parent anchors T k j hpj
        rw [ih.1] at hres
        rw [ih.1]
        exact hres

/-- Auxiliary: the maximal-dp index is 0 or a valid row index. -/
theorem maxDpIdx_bound (dps : List (Nat × Option Nat)) :
    (maxDpIdx dps).2 = 0 ∨ (maxDpIdx dps).2 < dps.length := by
  unfold maxDpIdx
  refine foldl_inv _ (fun cur : Nat × Nat => cur.2 = 0 ∨ cur.2 < dps.length)
    dps.enum (1, 0) (Or.inl rfl) ?_
  intro b q hq hb
  by_cases hcond : b.1 < q.2.1
  · right
    simp only [if_pos hcond]
    have := List.mem_enum_iff_getElem?.mp hq
    by_contra hc
    rw [List.getElem?_eq_none (Nat.le_of_not_lt hc)] at this
    exact Option.noConfusion this
  · simpa [hcond] using hb

/-- Auxiliary: the rebuilt index list is a sound parent chain ending at the
start index: consecutive indices strictly increase together with the `newIdx`
of their anchors. -/
theorem rebuildLis_spec (anchors : List Anchor) (dps : List (Nat × Option Nat))
    (hP : parentOK anchors dps) :
    ∀ (fuel idx : Nat),
      List.Chain' (fun i j : Nat => i < j ∧ ∃ ai aj, anchors.get? i = some ai ∧
          anchors.get? j = some aj ∧ ai.newIdx < aj.newIdx) (rebuildLis dps idx fuel) ∧
        (rebuildLis dps idx fuel = [] ∨ (rebuildLis dps idx fuel).getLast? = some idx) := by
  intro fuel
  induction fuel with
  | zero => intro idx; exact ⟨List.chain'_nil, Or.inl rfl⟩
  | succ fuel ih =>
    intro idx
    cases hdp : dps.get? idx with
    | none =>
      rw [rebuildLis, hdp]
      exact ⟨List.chain'_singleton _, Or.inr rfl⟩
    | some pi =>
      obtain ⟨d, p2⟩ := pi
      cases hpj : p2 with
      | none =>
        rw [rebuildLis, hdp, hpj]
        exact ⟨List.chain'_singleton _, Or.inr rfl⟩
      | some j =>
        subst hpj
        rw [rebuildLis, hdp]
        obtain ⟨hji, ai, aj, hai, haj, hnij⟩ := hP idx (d, some j) j hdp rfl
        obtain ⟨hchain, hlast⟩ := ih j
        constructor
        · rw [List.chain'_append]
          refine ⟨hchain, List.chain'_singleton _, ?_⟩
          intro x hx y hy
          have hy2 : y = idx := (by simpa using hy : idx = y).symm
          subst hy2
          rcases hlast with h0 | h0
          · rw [h0] at hx
            simp at hx
          · rw [h0] at hx
            have hx2 : x = j := (by simpa using hx : j = x).symm
            subst hx2
            exact ⟨hji, aj, ai, haj, hai, hnij⟩
        · right
          exact List.getLast?_concat _

/-- Auxiliary: a sound index chain into a strictly `oldIdx`-sorted anchor list
yields a subsequence of well-formed anchors strictly increasing in both
coordinates. -/
theorem lis_core (o n : List String) (anchors : List Anchor)
    (hmem : ∀ m ∈ anchors, AnchorOK o n m)
    (hstrict : List.Pairwise (fun a b : Anchor => a.oldIdx < b.oldIdx) anchors)
    (idxs : List Nat)
    (hchain : List.Chain' (fun i j : Nat => i < j ∧ ∃ ai aj,
      anchors.get? i = some ai ∧ anchors.get? j = some aj ∧ ai.newIdx < aj.newIdx) idxs) :
    (∀ m ∈ idxs.filterMap anchors.get?, AnchorOK o n m) ∧
      List.Pairwise (fun a b : Anchor => a.oldIdx < b.oldIdx ∧ a.newIdx < b.newIdx)
        (idxs.filterMap anchors.get?) := by
  constructor
  · intro m hm
    rcases List.mem_filterMap.mp hm with ⟨i, _, hget⟩
    exact hmem m (List.get?_mem hget)
  · haveI : IsTrans Nat (fun i j : Nat => i < j ∧ ∃ ai aj,
        anchors.get? i = some ai ∧ anchors.get? j = some aj ∧ ai.newIdx < aj.newIdx) := by
      constructor
      intro x y z hxy hyz
      obtain ⟨hxy1, ax, ay, hgx, hgy, hxy2⟩ := hxy
      obtain ⟨hyz1, ay', az, hgy', hgz, hyz2⟩ := hyz
      refine ⟨Nat.lt_trans hxy1 hyz1, ax, az, hgx, hgz, ?_⟩
      have : ay = ay' := by
        rw [hgy] at hgy'
        exact Option.some.inj hgy'
      rw [this] at hxy2
      exact Nat.lt_trans hxy2 hyz2
    have hpairIdx := List.chain'_iff_pairwise.mp hchain
    rw [List.pairwise_filterMap]
    refine hpairIdx.imp ?_
    intro i j hij b hb b' hb'
    obtain ⟨hlt, ai, aj, hgi, hgj, hnij⟩ := hij
    have hbi : b = ai := by
      have : anchors.get? i = some b := by simpa using hb
      rw [hgi] at this
      exact (Option.some.inj this).symm
    have hbj : b' = aj := by
      have : anchors.get? j = some b' := by simpa using hb'
      rw [hgj] at this
      exact (Option.some.inj this).symm
    subst hbi
    subst hbj
    refine ⟨?_, hnij⟩
    obtain ⟨hi, hgeti⟩ := List.get?_eq_some.mp hgi
    obtain ⟨hj, hgetj⟩ := List.get?_eq_some.mp hgj
    have := List.pairwise_iff_get.mp hstrict ⟨i, hi⟩ ⟨j, hj⟩ hlt
    rw [hgeti, hgetj] at this
    exact this

/-- Auxiliary: the surviving anchor subsequence (`lis`) consists of
well-formed anchors and is strictly increasing in both coordinates. -/
theorem lisOf_spec (o n : List String) :
    (∀ m ∈ lisOf o n, AnchorOK o n m) ∧
      List.Pairwise (fun a b : Anchor => a.oldIdx < b.oldIdx ∧ a.newIdx < b.newIdx)
        (lisOf o n) := by
  obtain ⟨hOK, hnodup⟩ := buildAnchors_spec o n
  have hmemS : ∀ m ∈ sortByOld (buildAnchors o n), AnchorOK o n m := by
    intro m hm
    exact hOK m ((sortByOld_perm _).mem_iff.mp hm)
  have hstrict := sortByOld_sorted_strict (buildAnchors o n) hnodup
  simp only [lisOf]
  cases hanch : sortByOld (buildAnchors o n) with
  | nil => simp
  | cons a rest =>
    rw [hanch] at hmemS hstrict
    exact lis_core o n (a :: rest) hmemS hstrict _
      (rebuildLis_spec (a :: rest) (dpTable (a :: rest)) (dpTable_spec (a :: rest)).2
        (maxDpIdx (dpTable (a :: rest))).1 (maxDpIdx (dpTable (a :: rest))).2).1

/-- Auxiliary: deletions carry no `+`/` ` lines. -/
theorem emitOld_filter_plus (o : List String) (i k : Nat) :
    (emitOld o i k).filter (fun l => l.change == '+' || l.change == ' ') = [] := by
  rw [List.filter_eq_nil]
  intro l hl
  rcases List.mem_map.mp hl with ⟨p, _, hfn⟩
  rw [← hfn]
  show ¬(('-' == '+' : Bool) || ('-' == ' ')) = true
  decide

/-- Auxiliary: insertions carry no `-`/` ` lines. -/
theorem emitNew_filter_minus (n : List String) (j k : Nat) :
    (emitNew n j k).filter (fun l => l.change == '-' || l.change == ' ') = [] := by
  rw [List.filter_eq_nil]
  intro l hl
  rcases List.mem_map.mp hl with ⟨p, _, hfn⟩
  rw [← hfn]
  show ¬(('+' == '-' : Bool) || ('+' == ' ')) = true
  decide

/-- Auxiliary: every insertion is a `+` line. -/
theorem emitNew_filter_plus (n : List String) (j k : Nat) :
    (emitNew n j k).filter (fun l => l.change == '+' || l.change == ' ') =
      emitNew n j k := by
  rw [List.filter_eq_self]
  intro l hl
  rcases List.mem_map.mp hl with ⟨p, _, hfn⟩
  rw [← hfn]
  show (('+' == '+' : Bool) || ('+' == ' ')) = true
  decide

/-- Auxiliary: every deletion is a `-` line. -/
theorem emitOld_filter_minus (o : List String) (i k : Nat) :
    (emitOld o i k).filter (fun l => l.change == '-' || l.change == ' ') =
      emitOld o i k := by
  rw [List.filter_eq_self]
  intro l hl
  rcases List.mem_map.mp hl with ⟨p, _, hfn⟩
  rw [← hfn]
  show (('-' == '-' : Bool) || ('-' == ' ')) = true
  decide

/-- Auxiliary: the texts of the emitted insertions are the corresponding slice
of the new sequence. -/
theorem emitNew_texts (n : List String) (j k : Nat) :
    (emitNew n j k).map (fun l => l.text) = (n.drop j).take (k - j) := by
  rw [emitNew, List.map_map]
  have : ((fun l : DiffLine => l.text) ∘ fun p : Nat × String =>
      (⟨p.2, '+', 0, j + p.1 + 1⟩ : DiffLine)) = Prod.snd := rfl
  rw [this]
  exact List.enum_map_snd _

/-- Auxiliary: the texts of the emitted deletions are the corresponding slice
of the old sequence. -/
theorem emitOld_texts (o : List String) (i k : Nat) :
    (emitOld o i k).map (fun l => l.text) = (o.drop i).take (k - i) := by
  rw [emitOld, List.map_map]
  have : ((fun l : DiffLine => l.text) ∘ fun p : Nat × String =>
      (⟨p.2, '-', i + p.1 + 1, 0⟩ : DiffLine)) = Prod.snd := rfl
  rw [this]
  exact List.enum_map_snd _

/-- Auxiliary: a drop decomposes as a slice, the element at the split point,
and the rest. -/
theorem drop_slice (l : List String) (j k : Nat) (hjk : j ≤ k) (hk : k < l.length) :
    (l.drop j).take (k - j) ++ (l.get? k).getD "" :: l.drop (k + 1) = l.drop j := by
  have h3 : l.drop k = (l.get? k).getD "" :: l.drop (k + 1) := by
    rw [List.drop_eq_getElem_cons hk]
    congr 1
    rw [List.get?_eq_getElem?, List.getElem?_eq_getElem hk]
    rfl
  calc (l.drop j).take (k - j) ++ (l.get? k).getD "" :: l.drop (k + 1)
      = (l.drop j).take (k - j) ++ l.drop k := by rw [h3]
    _ = (l.drop j).take (k - j) ++ (l.drop j).drop (k - j) := by
        rw [List.drop_drop]
        have hsum : j + (k - j) = k := by omega
        rw [hsum]
    _ = l.drop j := List.take_append_drop _ _

/-- Auxiliary: filtering a cons whose head is an equal line keeps the head
(`+`/` ` predicate). -/
theorem filter_plus_cons_space (l : List DiffLine) (t : String) (a b : Nat) :
    List.filter (fun l => l.change == '+' || l.change == ' ')
        ((⟨t, ' ', a, b⟩ : DiffLine) :: l) =
      (⟨t, ' ', a, b⟩ : DiffLine) ::
        List.filter (fun l => l.change == '+' || l.change == ' ') l := rfl

/-- Auxiliary: filtering a cons whose head is an equal line keeps the head
(`-`/` ` predicate). -/
theorem filter_minus_cons_space (l : List DiffLine) (t : String) (a b : Nat) :
    List.filter (fun l => l.change == '-' || l.change == ' ')
        ((⟨t, ' ', a, b⟩ : DiffLine) :: l) =
      (⟨t, ' ', a, b⟩ : DiffLine) ::
        List.filter (fun l => l.change == '-' || l.change == ' ') l := rfl

/-- Auxiliary round-trip (new side): the texts of the `+` and ` ` lines of the
walk started at `(i, j)` are exactly `n.drop j`. -/
theorem walk_plus (o n : List String) :
    ∀ (lis : List Anchor) (i j : Nat),
      List.Pairwise (fun a b : Anchor => a.oldIdx < b.oldIdx ∧ a.newIdx < b.newIdx) lis →
      (∀ m ∈ lis, i ≤ m.oldIdx ∧ j ≤ m.newIdx ∧ AnchorOK o n m) →
      ((walk o n lis i j).filter (fun l => l.change == '+' || l.change == ' ')).map
          (fun l => l.text) = n.drop j := by
  intro lis
  induction lis with
  | nil =>
    intro i j _ _
    rw [walk, List.filter_append, emitOld_filter_plus, emitNew_filter_plus,
      List.nil_append, emitNew_texts]
    rw [← List.length_drop]
    exact List.take_length _
  | cons m rest ih =>
    intro i j hpair hinv
    obtain ⟨hio, hjn, holt, hnlt, heq⟩ := hinv m (by simp)
    have hrest := ih (m.oldIdx + 1) (m.newIdx + 1)
      (List.pairwise_cons.mp hpair).2
      (fun m' hm' => by
        obtain ⟨h1, h2⟩ := (List.pairwise_cons.mp hpair).1 m' hm'
        exact ⟨Nat.succ_le_of_lt h1, Nat.succ_le_of_lt h2,
          (hinv m' (List.mem_cons_of_mem _ hm')).2.2⟩)
    rw [walk, List.filter_append, List.filter_append, emitOld_filter_plus,
      emitNew_filter_plus, List.nil_append, filter_plus_cons_space,
      List.map_append, List.map_cons, emitNew_texts, hrest]
    show (n.drop j).take (m.newIdx - j) ++
        ((o.get? m.oldIdx).getD "") :: n.drop (m.newIdx + 1) = n.drop j
    rw [heq]
    exact drop_slice n j m.newIdx hjn hnlt

/-- Auxiliary round-trip (old side): the texts of the `-` and ` ` lines of the
walk started at `(i, j)` are exactly `o.drop i`. -/
theorem walk_minus (o n : List String) :
    ∀ (lis : List Anchor) (i j : Nat),
      List.Pairwise (fun a b : Anchor => a.oldIdx < b.oldIdx ∧ a.newIdx < b.newIdx) lis →
      (∀ m ∈ lis, i ≤ m.oldIdx ∧ j ≤ m.newIdx ∧ AnchorOK o n m) →
      ((walk o n lis i j).filter (fun l => l.change == '-' || l.change == ' ')).map
          (fun l => l.text) = o.drop i := by
  intro lis
  induction lis with
  | nil =>
    intro i j _ _
    rw [walk, List.filter_append, emitOld_filter_minus, emitNew_filter_minus,
      List.append_nil, emitOld_texts]
    rw [← List.length_drop]
    exact List.take_length _
  | cons m rest ih =>
    intro i j hpair hinv
    obtain ⟨hio, hjn, holt, hnlt, heq⟩ := hinv m (by simp)
    have hrest := ih (m.oldIdx + 1) (m.newIdx + 1)
      (List.pairwise_cons.mp hpair).2
      (fun m' hm' => by
        obtain ⟨h1, h2⟩ := (List.pairwise_cons.mp hpair).1 m' hm'
        exact ⟨Nat.succ_le_of_lt h1, Nat.succ_le_of_lt h2,
          (hinv m' (List.mem_cons_of_mem _ hm')).2.2⟩)
    rw [walk, List.filter_append, List.filter_append, emitOld_filter_minus,
      emitNew_filter_minus, filter_minus_cons_space]
    simp only [List.nil_append, List.append_nil]
    rw [List.map_append, List.map_cons, emitOld_texts, hrest]
    exact drop_slice o i m.oldIdx hio holt

/-- C2: round-trip law of the Line Differ.  Taking the texts of the emitted
diff lines marked `+` or ` ` (in order) reproduces the `after` sequence
exactly, and taking the texts of the lines marked `-` or ` ` reproduces the
`before` sequence exactly, for all pairs of line sequences. -/
theorem lineDiffer_roundTrip (o n : List String) :
    ((computeDiffLines o n).filter (fun l => l.change == '+' || l.change == ' ')).map
        (fun l => l.text) = n ∧
      ((computeDiffLines o n).filter (fun l => l.change == '-' || l.change == ' ')).map
        (fun l => l.text) = o := by
  obtain ⟨hOK, hpair⟩ := lisOf_spec o n
  constructor
  · have := walk_plus o n (lisOf o n) 0 0 hpair
      (fun m hm => ⟨Nat.zero_le _, Nat.zero_le _, hOK m hm⟩)
    simpa [computeDiffLines] using this
  · have := walk_minus o n (lisOf o n) 0 0 hpair
      (fun m hm => ⟨Nat.zero_le _, Nat.zero_le _, hOK m hm⟩)
    simpa [computeDiffLines] using this

/-! ### Hunk characterization (C6) -/

/-- Well-formed diff line: a deletion carries only an old line number, an
insertion only a new one, an equal line both. -/
def wfLine (l : DiffLine) : Prop :=
  (l.change = '-' ∧ 0 < l.oldLine ∧ l.newLine = 0) ∨
    (l.change = '+' ∧ 0 < l.newLine ∧ l.oldLine = 0) ∨
    (l.change = ' ' ∧ 0 < l.oldLine ∧ 0 < l.newLine)

/-- Auxiliary: every line the walk emits is well-formed. -/
theorem walk_wf (o n : List String) :
    ∀ (lis : List Anchor) (i j : Nat), ∀ l ∈ walk o n lis i j, wfLine l := by
  intro lis
  induction lis with
  | nil =>
    intro i j l hl
    rw [walk] at hl
    rcases List.mem_append.mp hl with hl | hl
    · rcases List.mem_map.mp hl with ⟨p, _, hfn⟩
      rw [← hfn]
      exact Or.inl ⟨rfl, Nat.succ_pos _, rfl⟩
    · rcases List.mem_map.mp hl with ⟨p, _, hfn⟩
      rw [← hfn]
      exact Or.inr (Or.inl ⟨rfl, Nat.succ_pos _, rfl⟩)
  | cons m rest ih =>
    intro i j l hl
    rw [walk] at hl
    rcases List.mem_append.mp hl with hl | hl
    · rcases List.mem_append.mp hl with hl | hl
      · rcases List.mem_map.mp hl with ⟨p, _, hfn⟩
        rw [← hfn]
        exact Or.inl ⟨rfl, Nat.succ_pos _, rfl⟩
      · rcases List.mem_map.mp hl with ⟨p, _, hfn⟩
        rw [← hfn]
        exact Or.inr (Or.inl ⟨rfl, Nat.succ_pos _, rfl⟩)
    · rcases List.mem_cons.mp hl with hl | hl
      · rw [hl]
        exact Or.inr (Or.inr ⟨rfl, Nat.succ_pos _, Nat.succ_pos _⟩)
      · exact ih _ _ l hl

/-- Auxiliary: the lines of `computeDiffLines` are well-formed. -/
theorem computeDiffLines_wf (o n : List String) :
    ∀ l ∈ computeDiffLines o n, wfLine l :=
  fun l hl => walk_wf o n (lisOf o n) 0 0 l hl

/-- The invariant of the hunk-grouping scan after `k` processed indices. -/
def scanInv (result : List DiffLine) (ctx : Nat) (k : Nat)
    (st : List Hunk × Option Nat) : Prop :=
  (∀ h ∈ st.1,
    h.startIdx ≤ h.endIdx ∧ h.endIdx + 1 < k ∧
      (∀ t, h.startIdx ≤ t → t ≤ h.endIdx → qualifies result ctx t = true) ∧
      (h.startIdx = 0 ∨ qualifies result ctx (h.startIdx - 1) = false) ∧
      qualifies result ctx (h.endIdx + 1) = false) ∧
    (match st.2 with
     | some s => 0 < k ∧ s ≤ k - 1 ∧
         (∀ t, s ≤ t → t ≤ k - 1 → qualifies result ctx t = true) ∧
         (s = 0 ∨ qualifies result ctx (s - 1) = false)
     | none => k = 0 ∨ qualifies result ctx (k - 1) = false) ∧
    ∀ t, t < k → qualifies result ctx t = true →
      (∃ h ∈ st.1, h.startIdx ≤ t ∧ t ≤ h.endIdx) ∨ ∃ s, st.2 = some s ∧ s ≤ t

/-- Auxiliary: the scan maintains its invariant. -/
theorem hunkScan_inv (result : List DiffLine) (ctx : Nat) :
    ∀ k, scanInv result ctx k
      ((List.range k).foldl (hunkScanStep result ctx) ([], none)) := by
  intro k
  induction k with
  | zero =>
    refine ⟨?_, Or.inl rfl, ?_⟩
    · intro h hh
      simp at hh
    · intro t ht
      omega
  | succ k ih =>
    rw [List.range_succ, List.foldl_append, List.foldl_cons, List.foldl_nil]
    set st := (List.range k).foldl (hunkScanStep result ctx) ([], none) with hst
    obtain ⟨hclosed, hopen, hcover⟩ := ih
    by_cases hq : qualifies result ctx k = true
    · cases hsnd : st.2 with
      | none =>
        have hstep : hunkScanStep result ctx st k = (st.1, some k) := by
          rw [hunkScanStep, if_pos hq, hsnd]
        rw [hstep]
        refine ⟨?_, ?_, ?_⟩
        · intro h hh
          obtain ⟨h1, h2, h3, h4, h5⟩ := hclosed h hh
          exact ⟨h1, by omega, h3, h4, h5⟩
        · show 0 < k + 1 ∧ k ≤ k + 1 - 1 ∧
            (∀ t, k ≤ t → t ≤ k + 1 - 1 → qualifies result ctx t = true) ∧
            (k = 0 ∨ qualifies result ctx (k - 1) = false)
          refine ⟨Nat.succ_pos _, by omega, ?_, ?_⟩
          · intro t h1 h2
            have : t = k := by omega
            rw [this]
            exact hq
          · rw [hsnd] at hopen
            exact hopen
        · intro t ht hqt
          by_cases htk : t < k
          · rcases hcover t htk hqt with hc | hc
            · exact Or.inl hc
            · obtain ⟨s, hs, _⟩ := hc
              rw [hsnd] at hs
              exact Option.noConfusion hs
          · have : t = k := by omega
            exact Or.inr ⟨k, rfl, by omega⟩
      | some s =>
        have hstep : hunkScanStep result ctx st k = (st.1, some s) := by
          rw [hunkScanStep, if_pos hq, hsnd]
        rw [hstep]
        rw [hsnd] at hopen
        obtain ⟨hk0, hsk, hrun, hleft⟩ := hopen
        refine ⟨?_, ?_, ?_⟩
        · intro h hh
          obtain ⟨h1, h2, h3, h4, h5⟩ := hclosed h hh
          exact ⟨h1, by omega, h3, h4, h5⟩
        · show 0 < k + 1 ∧ s ≤ k + 1 - 1 ∧
            (∀ t, s ≤ t → t ≤ k + 1 - 1 → qualifies result ctx t = true) ∧
            (s = 0 ∨ qualifies result ctx (s - 1) = false)
          refine ⟨Nat.succ_pos _, by omega, ?_, hleft⟩
          intro t h1 h2
          by_cases htk : t ≤ k - 1
          · exact hrun t h1 htk
          · have : t = k := by omega
            rw [this]
            exact hq
        · intro t ht hqt
          by_cases htk : t < k
          · rcases hcover t htk hqt with hc | hc
            · exact Or.inl hc
            · obtain ⟨s', hs', hle⟩ := hc
              rw [hsnd] at hs'
              injection hs' with hs'
              exact Or.inr ⟨s, rfl, by omega⟩
          · have : t = k := by omega
            exact Or.inr ⟨s, rfl, by omega⟩
    · have hqf : qualifies result ctx k = false := Bool.eq_false_iff.mpr hq
      cases hsnd : st.2 with
      | none =>
        have hstep : hunkScanStep result ctx st k = st := by
          rw [hunkScanStep, if_neg hq, hsnd]
        rw [hstep]
        refine ⟨?_, ?_, ?_⟩
        · intro h hh
          obtain ⟨h1, h2, h3, h4, h5⟩ := hclosed h hh
          exact ⟨h1, by omega, h3, h4, h5⟩
        · simp only [hsnd]
          right
          simpa using hqf
        · intro t ht hqt
          by_cases htk : t < k
          · exact hcover t htk hqt
          · have : t = k := by omega
            rw [this] at hqt
            rw [hqt] at hqf
            exact Bool.noConfusion hqf
      | some s =>
        have hstep : hunkScanStep result ctx st k = (st.1 ++ [⟨s, k - 1⟩], none) := by
          rw [hunkScanStep, if_neg hq, hsnd]
        rw [hstep]
        rw [hsnd] at hopen
        obtain ⟨hk0, hsk, hrun, hleft⟩ := hopen
        refine ⟨?_, ?_, ?_⟩
        · intro h hh
          rcases List.mem_append.mp hh with hh | hh
          · obtain ⟨h1, h2, h3, h4, h5⟩ := hclosed h hh
            exact ⟨h1, by omega, h3, h4, h5⟩
          · rw [List.mem_singleton] at hh
            subst hh
            refine ⟨hsk, ?_, hrun, hleft, ?_⟩
            · show k - 1 + 1 < k + 1
              omega
            · show qualifies result ctx (k - 1 + 1) = false
              have hsum : k - 1 + 1 = k := by omega
              rw [hsum]
              exact hqf
        · show k + 1 = 0 ∨ qualifies result ctx (k + 1 - 1) = false
          right
          simpa using hqf
        · intro t ht hqt
          by_cases htk : t < k
          · rcases hcover t htk hqt with hc | hc
            · obtain ⟨h, hh, hth⟩ := hc
              exact Or.inl ⟨h, List.mem_append.mpr (Or.inl hh), hth⟩
            · obtain ⟨s2, hs2, hle⟩ := hc
              rw [hsnd] at hs2
              have hss : s = s2 := Option.some.inj hs2
              refine Or.inl ⟨⟨s, k - 1⟩, List.mem_append.mpr (Or.inr (by simp)), ?_, ?_⟩
              · show s ≤ t
                omega
              · show t ≤ k - 1
                omega
          · have : t = k := by omega
            rw [this] at hqt
            rw [hqt] at hqf
            exact Bool.noConfusion hqf

/-- Auxiliary: the hunks found are exactly the maximal qualifying runs: each
hunk is a contiguous run of qualifying indices, maximal on both sides, and
every qualifying index lies in some hunk. -/
theorem findHunks_spec (result : List DiffLine) (ctx : Nat) :
    (∀ h ∈ findHunks result ctx,
      h.startIdx ≤ h.endIdx ∧ h.endIdx < result.length ∧
        (∀ t, h.startIdx ≤ t → t ≤ h.endIdx → qualifies result ctx t = true) ∧
        (h.startIdx = 0 ∨ qualifies result ctx (h.startIdx - 1) = false) ∧
        (h.endIdx = result.length - 1 ∨ qualifies result ctx (h.endIdx + 1) = false)) ∧
      ∀ t, t < result.length → qualifies result ctx t = true →
        ∃ h ∈ findHunks result ctx, h.startIdx ≤ t ∧ t ≤ h.endIdx := by
  have hinv := hunkScan_inv result ctx result.length
  rcases hscan : (List.range result.length).foldl (hunkScanStep result ctx) ([], none)
    with ⟨hs, op⟩
  cases op with
  | none =>
    rw [hscan] at hinv
    obtain ⟨hclosed, hopen, hcover⟩ := hinv
    have hfh : findHunks result ctx = hs := by
      rw [findHunks, hscan]
    rw [hfh]
    constructor
    · intro h hh
      obtain ⟨h1, h2, h3, h4, h5⟩ := hclosed h hh
      exact ⟨h1, by omega, h3, h4, Or.inr h5⟩
    · intro t ht hq
      rcases hcover t ht hq with hc | hc
      · exact hc
      · obtain ⟨s, hs2, _⟩ := hc
        exact Option.noConfusion hs2
  | some s =>
    rw [hscan] at hinv
    obtain ⟨hclosed, hopen, hcover⟩ := hinv
    have hfh : findHunks result ctx = hs ++ [⟨s, result.length - 1⟩] := by
      rw [findHunks, hscan]
    rw [hfh]
    obtain ⟨hk0, hsk, hrun, hleft⟩ := hopen
    constructor
    · intro h hh
      rcases List.mem_append.mp hh with hh | hh
      · obtain ⟨h1, h2, h3, h4, h5⟩ := hclosed h hh
        exact ⟨h1, by omega, h3, h4, Or.inr h5⟩
      · rw [List.mem_singleton] at hh
        subst hh
        refine ⟨hsk, ?_, hrun, hleft, Or.inl rfl⟩
        show result.length - 1 < result.length
        omega
    · intro t ht hq
      rcases hcover t ht hq with hc | hc
      · obtain ⟨h, hh, hth⟩ := hc
        exact ⟨h, List.mem_append.mpr (Or.inl hh), hth⟩
      · obtain ⟨s2, hs2, hle⟩ := hc
        have hss : s = s2 := Option.some.inj hs2
        refine ⟨⟨s, result.length - 1⟩, List.mem_append.mpr (Or.inr (by simp)), ?_, ?_⟩
        · show s ≤ t
          omega
        · show t ≤ result.length - 1
          omega

/-- The first old line number carried by a hunk line, in scan order. -/
def firstOldLine (lines : List DiffLine) : Option Nat :=
  (lines.filterMap fun l => if 0 < l.oldLine then some l.oldLine else none).head?

/-- The first new line number carried by a hunk line, in scan order. -/
def firstNewLine (lines : List DiffLine) : Option Nat :=
  (lines.filterMap fun l => if 0 < l.newLine then some l.newLine else none).head?

/-- The hunk header as the claim states it: `oldStart`/`newStart` are the
first encountered old/new line numbers within the hunk (defaulting to 1 when
absent), and `oldCount`/`newCount` count the hunk lines carrying an old/new
line number (equal lines counting toward both). -/
def headerSpec (result : List DiffLine) (h : Hunk) : HunkHeader :=
  let lines := hunkSlice result h
  { oldStart := (firstOldLine lines).getD 1,
    oldCount := lines.countP fun l => decide (0 < l.oldLine),
    newStart := (firstNewLine lines).getD 1,
    newCount := lines.countP fun l => decide (0 < l.newLine) }

/-- Auxiliary: closed form of the header fold over well-formed lines. -/
theorem headerStep_fold (lines : List DiffLine) :
    ∀ st : HunkHeader, (∀ l ∈ lines, wfLine l) →
      lines.foldl headerStep st =
        { oldStart := if st.oldStart = 0 then (firstOldLine lines).getD 0 else st.oldStart,
          oldCount := st.oldCount + (lines.countP fun l => decide (0 < l.oldLine)),
          newStart := if st.newStart = 0 then (firstNewLine lines).getD 0 else st.newStart,
          newCount := st.newCount + (lines.countP fun l => decide (0 < l.newLine)) } := by
  induction lines with
  | nil =>
    intro st _
    rcases st with ⟨a, b, c, d⟩
    simp only [List.foldl_nil, firstOldLine, firstNewLine, List.filterMap_nil,
      List.head?_nil, Option.getD_none, List.countP_nil, Nat.add_zero]
    by_cases ha : a = 0 <;> by_cases hc : c = 0 <;> simp [ha, hc]
  | cons l rest ih =>
    intro st hwf
    have hrest : ∀ x ∈ rest, wfLine x := fun x hx => hwf x (List.mem_cons_of_mem _ hx)
    rw [List.foldl_cons]
    rcases hwf l (by simp) with ⟨hc, h1, h2⟩ | ⟨hc, h1, h2⟩ | ⟨hc, h1, h2⟩
    · -- deletion line
      have hstep : headerStep st l =
          { oldStart := if st.oldStart = 0 then l.oldLine else st.oldStart,
            oldCount := st.oldCount + 1,
            newStart := st.newStart,
            newCount := st.newCount } := by
        rw [headerStep, if_neg (by rw [hc]; decide), if_pos hc]
        simp [h1]
      rw [hstep, ih _ hrest]
      have hfo : firstOldLine (l :: rest) = some l.oldLine := by
        rw [firstOldLine, List.filterMap_cons, if_pos h1, List.head?_cons]
      have hfn : firstNewLine (l :: rest) = firstNewLine rest := by
        rw [firstNewLine, List.filterMap_cons, if_neg (by omega)]
        rfl
      have hco : ((l :: rest).countP fun x => decide (0 < x.oldLine)) =
          (rest.countP fun x => decide (0 < x.oldLine)) + 1 := by
        rw [List.countP_cons]
        simp [h1]
      have hcn : ((l :: rest).countP fun x => decide (0 < x.newLine)) =
          rest.countP fun x => decide (0 < x.newLine) := by
        rw [List.countP_cons]
        simp [h2]
      rw [hfo, hfn, hco, hcn]
      by_cases ha : st.oldStart = 0 <;>
        simp [ha, (show ¬l.oldLine = 0 by omega)] <;> omega
    · -- insertion line
      have hstep : headerStep st l =
          { oldStart := st.oldStart,
            oldCount := st.oldCount,
            newStart := if st.newStart = 0 then l.newLine else st.newStart,
            newCount := st.newCount + 1 } := by
        rw [headerStep, if_neg (by rw [hc]; decide), if_neg (by rw [hc]; decide),
          if_pos hc]
        simp [h1]
      rw [hstep, ih _ hrest]
      have hfo : firstOldLine (l :: rest) = firstOldLine rest := by
        rw [firstOldLine, List.filterMap_cons, if_neg (by omega)]
        rfl
      have hfn : firstNewLine (l :: rest) = some l.newLine := by
        rw [firstNewLine, List.filterMap_cons, if_pos h1, List.head?_cons]
      have hco : ((l :: rest).countP fun x => decide (0 < x.oldLine)) =
          rest.countP fun x => decide (0 < x.oldLine) := by
        rw [List.countP_cons]
        simp [h2]
      have hcn : ((l :: rest).countP fun x => decide (0 < x.newLine)) =
          (rest.countP fun x => decide (0 < x.newLine)) + 1 := by
        rw [List.countP_cons]
        simp [h1]
      rw [hfo, hfn, hco, hcn]
      by_cases hcs : st.newStart = 0 <;>
        simp [hcs, (show ¬l.newLine = 0 by omega)] <;> omega
    · -- equal line
      have hstep : headerStep st l =
          { oldStart := if st.oldStart = 0 then l.oldLine else st.oldStart,
            oldCount := st.oldCount + 1,
            newStart := if st.newStart = 0 then l.newLine else st.newStart,
            newCount := st.newCount + 1 } := by
        rw [headerStep, if_pos hc]
        simp [h1, h2]
      rw [hstep, ih _ hrest]
      have hfo : firstOldLine (l :: rest) = some l.oldLine := by
        rw [firstOldLine, List.filterMap_cons, if_pos h1, List.head?_cons]
      have hfn : firstNewLine (l :: rest) = some l.newLine := by
        rw [firstNewLine, List.filterMap_cons, if_pos h2, List.head?_cons]
      have hco : ((l :: rest).countP fun x => decide (0 < x.oldLine)) =
          (rest.countP fun x => decide (0 < x.oldLine)) + 1 := by
        rw [List.countP_cons]
        simp [h1]
      have hcn : ((l :: rest).countP fun x => decide (0 < x.newLine)) =
          (rest.countP fun x => decide (0 < x.newLine)) + 1 := by
        rw [List.countP_cons]
        simp [h2]
      rw [hfo, hfn, hco, hcn]
      by_cases ha : st.oldStart = 0 <;> by_cases hcs : st.newStart = 0 <;>
        simp [ha, hcs, (show ¬l.oldLine = 0 by omega),
          (show ¬l.newLine = 0 by omega)] <;> omega

/-- Auxiliary: a value returned by `firstOldLine` is positive. -/
theorem firstOldLine_pos (lines : List DiffLine) (v : Nat)
    (hv : firstOldLine lines = some v) : 0 < v := by
  rw [firstOldLine] at hv
  cases hfl : lines.filterMap fun l => if 0 < l.oldLine then some l.oldLine else none with
  | nil =>
    rw [hfl] at hv
    exact Option.noConfusion hv
  | cons a t =>
    rw [hfl, List.head?_cons] at hv
    have hva : v = a := (Option.some.inj hv).symm
    have hmem : a ∈ lines.filterMap
        fun l => if 0 < l.oldLine then some l.oldLine else none := by
      rw [hfl]
      exact List.mem_cons_self a t
    obtain ⟨x, _, hfx⟩ := List.mem_filterMap.mp hmem
    by_cases hx : 0 < x.oldLine
    · rw [if_pos hx] at hfx
      have := Option.some.inj hfx
      omega
    · rw [if_neg hx] at hfx
      exact Option.noConfusion hfx

/-- Auxiliary: a value returned by `firstNewLine` is positive. -/
theorem firstNewLine_pos (lines : List DiffLine) (v : Nat)
    (hv : firstNewLine lines = some v) : 0 < v := by
  rw [firstNewLine] at hv
  cases hfl : lines.filterMap fun l => if 0 < l.newLine then some l.newLine else none with
  | nil =>
    rw [hfl] at hv
    exact Option.noConfusion hv
  | cons a t =>
    rw [hfl, List.head?_cons] at hv
    have hva : v = a := (Option.some.inj hv).symm
    have hmem : a ∈ lines.filterMap
        fun l => if 0 < l.newLine then some l.newLine else none := by
      rw [hfl]
      exact List.mem_cons_self a t
    obtain ⟨x, _, hfx⟩ := List.mem_filterMap.mp hmem
    by_cases hx : 0 < x.newLine
    · rw [if_pos hx] at hfx
      have := Option.some.inj hfx
      omega
    · rw [if_neg hx] at hfx
      exact Option.noConfusion hfx

/-- Auxiliary: over well-formed lines the hunk-header loop (plus the final
default-to-1 step) computes exactly the spec header. -/
theorem hunkHeader_eq_spec (result : List DiffLine) (h : Hunk)
    (hwf : ∀ l ∈ hunkSlice result h, wfLine l) :
    hunkHeader result h = headerSpec result h := by
  have hfold := headerStep_fold (hunkSlice result h) ⟨0, 0, 0, 0⟩ hwf
  rcases hfo : firstOldLine (hunkSlice result h) with _ | v
  · rcases hfn : firstNewLine (hunkSlice result h) with _ | w
    · simp [hunkHeader, headerSpec, hfold, hfo, hfn]
    · have hw := firstNewLine_pos (hunkSlice result h) w hfn
      simp [hunkHeader, headerSpec, hfold, hfo, hfn, (show ¬w = 0 by omega)]
  · have hv := firstOldLine_pos (hunkSlice result h) v hfo
    rcases hfn : firstNewLine (hunkSlice result h) with _ | w
    · simp [hunkHeader, headerSpec, hfold, hfo, hfn, (show ¬v = 0 by omega)]
    · have hw := firstNewLine_pos (hunkSlice result h) w hfn
      simp [hunkHeader, headerSpec, hfold, hfo, hfn, (show ¬v = 0 by omega),
        (show ¬w = 0 by omega)]

/-- C6: for a pair of line sequences with at least one changed diff line, the
rendered output is the file header followed by exactly the hunks: each hunk is
a contiguous run of qualifying indices (changed or within `contextLines` of a
change) that is maximal on both sides, every qualifying index lies inside some
hunk (lines outside every hunk are omitted from the rendering), and each
hunk's header equals the spec header: `oldStart`/`newStart` are the first
encountered old/new line numbers within the hunk (defaulting to 1 when the
hunk has no old or no new lines) and `oldCount`/`newCount` count the hunk
lines carrying an old/new line number, equal lines counting toward both. -/
theorem findHunks_characterization (now : String) (o n : List String)
    (filename : String) (ctx : Nat) (hne : o ≠ n)
    (hch : ((computeDiffLines o n).any fun l => l.change != ' ') = true) :
    generateUnifiedDiff now o n filename ctx =
        fileHeader now filename ++
          String.join
            ((findHunks (computeDiffLines o n) ctx).map
              (renderHunk (computeDiffLines o n))) ∧
      (∀ h ∈ findHunks (computeDiffLines o n) ctx,
        h.startIdx ≤ h.endIdx ∧ h.endIdx < (computeDiffLines o n).length ∧
          (∀ t, h.startIdx ≤ t → t ≤ h.endIdx →
            qualifies (computeDiffLines o n) ctx t = true) ∧
          (h.startIdx = 0 ∨
            qualifies (computeDiffLines o n) ctx (h.startIdx - 1) = false) ∧
          (h.endIdx = (computeDiffLines o n).length - 1 ∨
            qualifies (computeDiffLines o n) ctx (h.endIdx + 1) = false) ∧
          hunkHeader (computeDiffLines o n) h =
            headerSpec (computeDiffLines o n) h) ∧
      ∀ t, t < (computeDiffLines o n).length →
        qualifies (computeDiffLines o n) ctx t = true →
          ∃ h ∈ findHunks (computeDiffLines o n) ctx,
            h.startIdx ≤ t ∧ t ≤ h.endIdx := by
  obtain ⟨hall, hcov⟩ := findHunks_spec (computeDiffLines o n) ctx
  refine ⟨?_, ?_, hcov⟩
  · simp [generateUnifiedDiff, hne, hch]
  · intro h hh
    obtain ⟨h1, h2, h3, h4, h5⟩ := hall h hh
    refine ⟨h1, h2, h3, h4, h5, ?_⟩
    apply hunkHeader_eq_spec
    intro l hl
    exact computeDiffLines_wf o n l
      (List.mem_of_mem_drop (List.mem_of_mem_take hl))

/-- Witness for C6 at a concrete input: `["a"]` vs `["b"]` with three context
lines; the hypotheses hold and the rendering equation is obtained from the
theorem. -/
theorem findHunks_characterization_witness :
    (["a"] ≠ ["b"] ∧
        ((computeDiffLines ["a"] ["b"]).any fun l => l.change != ' ') = true) ∧
      generateUnifiedDiff "now" ["a"] ["b"] "f" 3 =
        fileHeader "now" "f" ++
          String.join
            ((findHunks (computeDiffLines ["a"] ["b"]) 3).map
              (renderHunk (computeDiffLines ["a"] ["b"]))) :=
  ⟨⟨by decide, by decide⟩,
    (findHunks_characterization "now" ["a"] ["b"] "f" 3 (by decide) (by decide)).1⟩

end ArgoDiff
